import Mathlib

/-!
Verification of the IPES data-pipeline core (`code/structure_data.py` and
`code/schemas.py`) against its natural-language specification.

Strings are modelled as `List Char`.  The embedding covers the ASCII fragment
of Python semantics: `str.lower`/`str.upper` map only 'A'-'Z'/'a'-'z', the
regex classes `\w` and `\s` are `[A-Za-z0-9_]` and `[ \t\n\r\v\f]`.  All
string literals appearing in the claims are ASCII, so the fragment is faithful
on every input considered here.
-/

deriving instance DecidableEq for Except

namespace IPES

abbrev Str := List Char

/-- ASCII fragment of Python's regex class `\w` (word character). -/
def isWordChar (c : Char) : Bool := c.isAlpha || c.isDigit || c == '_'

/-- ASCII fragment of Python's regex class `\s` / `str.isspace`. -/
def isSpaceChar (c : Char) : Bool :=
  c == ' ' || c == '\t' || c == '\n' || c == '\r' || c == '\x0b' || c == '\x0c'

/-- Python `str.lower` on the ASCII fragment. -/
def pyLower (c : Char) : Char := c.toLower

/-- Python `str.upper` on the ASCII fragment. -/
def pyUpper (c : Char) : Char := c.toUpper

/-- Python `str.strip()` (strip whitespace at both ends). -/
def pyStrip (s : Str) : Str :=
  ((s.dropWhile isSpaceChar).reverse.dropWhile isSpaceChar).reverse

/-- `p` is a prefix of `s`: return the remaining suffix. -/
def dropPre : Str → Str → Option Str
  | [], s => some s
  | _ :: _, [] => none
  | p :: ps, c :: cs => if p = c then dropPre ps cs else none

/-- Python `pat in s` (contiguous substring test). -/
def containsSub (pat s : Str) : Bool :=
  match s with
  | [] => (pat == [])
  | _ :: cs => (dropPre pat s).isSome || containsSub pat cs

/-!
### The business-suffix regexes of `normalize_company_name`

Each alternative of the three suffix patterns
`\b(llc|l\.l\.c\.?|inc\.?|...)\b` is a fixed literal with an optional
trailing dot.  Every literal starts and ends with a letter, so the leading
`\b` requires a non-word character (or the string start) right before the
match, and the trailing `\b` requires either a non-word character (or the
end) after the literal, or — when the greedy optional dot is taken — a word
character right after the consumed dot.  `re.sub` scans left to right,
alternatives are tried in pattern order, and each match is deleted.
-/

structure Alt where
  lit : Str
  optDot : Bool

/-- First suffix pattern of the source, in alternation order. -/
def alts1 : List Alt :=
  [⟨"llc".toList, false⟩, ⟨"l.l.c".toList, true⟩, ⟨"inc".toList, true⟩,
   ⟨"incorporated".toList, false⟩, ⟨"corp".toList, true⟩,
   ⟨"corporation".toList, false⟩, ⟨"co".toList, true⟩, ⟨"company".toList, false⟩]

/-- Second suffix pattern of the source, in alternation order. -/
def alts2 : List Alt :=
  [⟨"ltd".toList, true⟩, ⟨"limited".toList, false⟩, ⟨"lp".toList, false⟩,
   ⟨"l.p".toList, true⟩, ⟨"llp".toList, false⟩, ⟨"l.l.p".toList, true⟩]

/-- Third suffix pattern of the source, in alternation order. -/
def alts3 : List Alt :=
  [⟨"pllc".toList, false⟩, ⟨"p.l.l.c".toList, true⟩, ⟨"pc".toList, false⟩,
   ⟨"p.c".toList, true⟩]

/-- Trailing `\b` after a match that ends in a word character. -/
def wordBoundaryAfter (rest : Str) : Bool :=
  match rest with
  | [] => true
  | c :: _ => !isWordChar c

/-- Try one alternative at the current position (the leading `\b` has already
been checked by the scanner).  Returns the number of consumed characters and
whether the last consumed character is a word character. -/
def altTry (a : Alt) (s : Str) : Option (Nat × Bool) :=
  match dropPre a.lit s with
  | none => none
  | some rest =>
    if a.optDot then
      match rest with
      | '.' :: c :: _ =>
        if isWordChar c then some (a.lit.length + 1, false)
        else if wordBoundaryAfter rest then some (a.lit.length, true) else none
      | _ => if wordBoundaryAfter rest then some (a.lit.length, true) else none
    else
      if wordBoundaryAfter rest then some (a.lit.length, true) else none

/-- Try the alternatives in pattern order; first success wins. -/
def altsTry : List Alt → Str → Option (Nat × Bool)
  | [], _ => none
  | a :: as, s =>
    match altTry a s with
    | some r => some r
    | none => altsTry as s

/-- `re.sub(pattern, '', s)` for one suffix pattern.  `prevW` records whether
the previous character of the current string is a word character (all
alternatives start with a letter, so a match can only begin where the
previous character is not a word character).  `skip` counts characters of a
found match still to delete; recursion is structural on the string. -/
def subScanGo (as : List Alt) : Nat → Bool → Str → Str
  | _, _, [] => []
  | skip + 1, w, _ :: cs => subScanGo as skip w cs
  | 0, prevW, c :: cs =>
    if prevW then c :: subScanGo as 0 (isWordChar c) cs
    else
      match altsTry as (c :: cs) with
      | some (n, w) => subScanGo as (n - 1) w cs
      | none => c :: subScanGo as 0 (isWordChar c) cs

def subScan (as : List Alt) (prevW : Bool) (s : Str) : Str :=
  subScanGo as 0 prevW s

/-!
### The `d/b/a` truncation regex `,?\s*(d/?b/?a|doing business as)\s+.*$`

There is no `\b` in this pattern, `.` does not match a newline, and `$`
matches at the end of the string or just before a terminal newline, so the
substitution deletes from the leftmost viable marker to the end (keeping a
terminal newline when `$` matched in front of it).
-/

/-- The marker alternative `d/?b/?a` (greedy optional slashes). -/
def dbaVariant : Str → Option Str
  | 'd' :: r =>
    let r1 := match r with | '/' :: r2 => r2 | _ => r
    match r1 with
    | 'b' :: r2 =>
      let r3 := match r2 with | '/' :: r4 => r4 | _ => r2
      (match r3 with
       | 'a' :: r4 => some r4
       | _ => none)
    | _ => none
  | _ => none

/-- The marker `(d/?b/?a|doing business as)`, in alternation order. -/
def dbaMarker (s : Str) : Option Str :=
  match dbaVariant s with
  | some r => some r
  | none => dropPre ("doing business as".toList) s

/-- `\s+.*$` after the marker: at least one whitespace character, then the
greedy run of all whitespace, then the greedy run of non-newline characters;
`$` accepts the end of the string or a single terminal newline.  Returns the
part of the string the match does not consume. -/
def dbaTail (u : Str) : Option Str :=
  match u with
  | [] => none
  | c :: _ =>
    if isSpaceChar c then
      match (u.dropWhile isSpaceChar).dropWhile (fun ch => ch != '\n') with
      | [] => some []
      | ['\n'] => some ['\n']
      | _ => none
    else none

/-- A full match attempt starting at the current position. -/
def dbaTryAt (s : Str) : Option Str :=
  let s1 := match s with | ',' :: r => r | _ => s
  match dbaMarker (s1.dropWhile isSpaceChar) with
  | some rest => dbaTail rest
  | none => none

/-- `re.sub` for the `d/b/a` pattern: delete from the leftmost match on. -/
def dbaScan : Str → Str
  | [] => []
  | c :: cs =>
    match dbaTryAt (c :: cs) with
    | some leftover => leftover
    | none => c :: dbaScan cs

/-- `re.sub(r'[^\w\s]', ' ', s)`. -/
def puncMap (c : Char) : Char :=
  if isWordChar c || isSpaceChar c then c else ' '

/-- `re.sub(r'\s+', ' ', s)`: collapse whitespace runs to single spaces. -/
def collapseGo : Bool → Str → Str
  | _, [] => []
  | prevSp, c :: cs =>
    if isSpaceChar c then
      if prevSp then collapseGo true cs else ' ' :: collapseGo true cs
    else c :: collapseGo false cs

/-- `normalize_company_name` (structure_data.py, lines 66-87). -/
def normalize_company_name (s : Str) : Str :=
  if s = [] then []
  else
    let n1 := pyStrip (s.map pyLower)
    let n2 := subScan alts1 false n1
    let n3 := subScan alts2 false n2
    let n4 := subScan alts3 false n3
    let n5 := dbaScan n4
    pyStrip (collapseGo false (n5.map puncMap))

/-!
### Exclusion and classification heuristics
-/

/-- `re.search(r'^fcc\b', s)`: anchored literal plus word boundary. -/
def fccAnchored (s : Str) : Bool :=
  match dropPre ("fcc".toList) s with
  | some rest => wordBoundaryAfter rest
  | none => false

/-- `should_exclude` (structure_data.py, lines 90-96); all patterns except
`^fcc\b` are plain substring searches. -/
def should_exclude (name : Str) : Bool :=
  let nl := name.map pyLower
  containsSub ("wireline competition bureau".toList) nl ||
  fccAnchored nl ||
  containsSub ("federal communications commission".toList) nl ||
  containsSub ("national telecommunications and information".toList) nl ||
  containsSub ("department of justice".toList) nl ||
  containsSub ("national association of regulatory".toList) nl

/-- `is_application_type` (lines 99-102), given the filing's
`submission_type` value (`None` when the key is absent). -/
def is_application_type (subType : Option Str) : Bool :=
  let st := (subType.getD []).map pyUpper
  containsSub ("APPLICATION".toList) st ||
  containsSub ("REQUEST".toList) st ||
  containsSub ("PETITION".toList) st

/-- Python `str.split()` with no argument: split on whitespace runs,
discarding empty pieces.  `cur` holds the current token reversed. -/
def splitWsGo : Str → Str → List Str
  | cur, [] => if cur = [] then [] else [cur.reverse]
  | cur, c :: cs =>
    if isSpaceChar c then
      if cur = [] then splitWsGo [] cs else cur.reverse :: splitWsGo [] cs
    else splitWsGo (c :: cur) cs

def pySplitWs (s : Str) : List Str := splitWsGo [] s

def business_indicators : List Str :=
  ["llc", "inc", "corp", "company", "co.", "communications", "telecom",
   "voip", "network", "services", "solutions"].map String.toList

/-- `is_likely_individual` (lines 105-115). -/
def is_likely_individual (name : Str) : Bool :=
  let nl := name.map pyLower
  let hasBiz := business_indicators.any (fun ind => containsSub ind nl)
  decide ((pySplitWs name).length ≤ 3) && !hasBiz

/-- Python `str.split("; ")` (leftmost, non-overlapping, keeps empties).
`acc` holds the current piece reversed. -/
def splitSemiGo : Str → Str → List Str
  | acc, [] => [acc.reverse]
  | acc, ';' :: ' ' :: rest => acc.reverse :: splitSemiGo [] rest
  | acc, c :: cs => splitSemiGo (c :: acc) cs

def splitSemi (s : Str) : List Str := splitSemiGo [] s

/-!
### `generate_company_id`: name-based UUID (version 5)

`uuid.uuid5(namespace, name)` is SHA-1 over the namespace bytes followed by
the UTF-8 encoding of the name; the first 16 digest bytes become the UUID
with the version nibble forced to 5 and the variant bits to `10`.  SHA-1 is
implemented below directly from FIPS 180; all word arithmetic is `Nat`
reduced modulo `2^32`.
-/

def utf8Char (n : Nat) : List Nat :=
  if n < 128 then [n]
  else if n < 2048 then [192 + n / 64, 128 + n % 64]
  else if n < 65536 then [224 + n / 4096, 128 + (n / 64) % 64, 128 + n % 64]
  else [240 + n / 262144, 128 + (n / 4096) % 64, 128 + (n / 64) % 64, 128 + n % 64]

def utf8Bytes (s : Str) : List Nat := (s.map (fun c => utf8Char c.toNat)).flatten

/-- Rotate a 32-bit word left by `k`. -/
def rotl (k n : Nat) : Nat := (n * 2 ^ k) % 4294967296 + n / 2 ^ (32 - k)

/-- SHA-1 padding: `0x80`, zeros to 56 mod 64, 8-byte big-endian bit length. -/
def sha1Pad (msg : List Nat) : List Nat :=
  let l := msg.length
  let z := (120 - (l + 1) % 64) % 64
  let bits := l * 8
  msg ++ [128] ++ List.replicate z 0 ++
    [bits / 2 ^ 56 % 256, bits / 2 ^ 48 % 256, bits / 2 ^ 40 % 256,
     bits / 2 ^ 32 % 256, bits / 2 ^ 24 % 256, bits / 2 ^ 16 % 256,
     bits / 2 ^ 8 % 256, bits % 256]

/-- Big-endian 32-bit words from bytes. -/
def wordsBE : List Nat → List Nat
  | b0 :: b1 :: b2 :: b3 :: rest =>
    (b0 * 16777216 + b1 * 65536 + b2 * 256 + b3) :: wordsBE rest
  | _ => []

/-- Split a word list into 16-word blocks (the padded input is always an
exact multiple of 16 words). -/
def chunks16 : List Nat → List (List Nat)
  | w0 :: w1 :: w2 :: w3 :: w4 :: w5 :: w6 :: w7 ::
    w8 :: w9 :: w10 :: w11 :: w12 :: w13 :: w14 :: w15 :: rest =>
    [w0, w1, w2, w3, w4, w5, w6, w7, w8, w9, w10, w11, w12, w13, w14, w15] ::
      chunks16 rest
  | [] => []
  | l => [l]

/-- Message schedule: extend 16 words to 80. -/
def sha1Ws (init16 : List Nat) : List Nat :=
  (List.range 64).foldl
    (fun w _ =>
      let n := w.length
      w ++ [rotl 1 (Nat.xor (Nat.xor (w.getD (n - 3) 0) (w.getD (n - 8) 0))
                    (Nat.xor (w.getD (n - 14) 0) (w.getD (n - 16) 0)))])
    init16

def sha1F (t b c d : Nat) : Nat :=
  if t < 20 then Nat.lor (Nat.land b c) (Nat.land (4294967295 - b) d)
  else if t < 40 then Nat.xor (Nat.xor b c) d
  else if t < 60 then Nat.lor (Nat.lor (Nat.land b c) (Nat.land b d)) (Nat.land c d)
  else Nat.xor (Nat.xor b c) d

def sha1K (t : Nat) : Nat :=
  if t < 20 then 1518500249
  else if t < 40 then 1859775393
  else if t < 60 then 2400959708
  else 3395469782

def sha1Round (st : Nat × Nat × Nat × Nat × Nat) (tw : Nat × Nat) :
    Nat × Nat × Nat × Nat × Nat :=
  let (a, b, c, d, e) := st
  let tmp := (rotl 5 a + sha1F tw.1 b c d + e + sha1K tw.1 + tw.2) % 4294967296
  (tmp, a, rotl 30 b, c, d)

def sha1Chunk (h : Nat × Nat × Nat × Nat × Nat) (block : List Nat) :
    Nat × Nat × Nat × Nat × Nat :=
  let ws := sha1Ws block
  let (a, b, c, d, e) := ((List.range 80).zip ws).foldl sha1Round h
  ((h.1 + a) % 4294967296, (h.2.1 + b) % 4294967296, (h.2.2.1 + c) % 4294967296,
   (h.2.2.2.1 + d) % 4294967296, (h.2.2.2.2 + e) % 4294967296)

def wordBytesBE (n : Nat) : List Nat :=
  [n / 16777216 % 256, n / 65536 % 256, n / 256 % 256, n % 256]

/-- SHA-1 digest (20 bytes) of a byte list. -/
def sha1 (msg : List Nat) : List Nat :=
  let blocks := chunks16 (wordsBE (sha1Pad msg))
  let h := blocks.foldl sha1Chunk
    (1732584193, 4023233417, 2562383102, 271733878, 3285377520)
  wordBytesBE h.1 ++ wordBytesBE h.2.1 ++ wordBytesBE h.2.2.1 ++
    wordBytesBE h.2.2.2.1 ++ wordBytesBE h.2.2.2.2

/-- Bytes of the fixed namespace `6ba7b810-9dad-11d1-80b4-00c04fd430c8`. -/
def nsBytes : List Nat :=
  [107, 167, 184, 16, 157, 173, 17, 209, 128, 180, 0, 192, 79, 212, 48, 200]

def hexDigit (n : Nat) : Char :=
  if n < 10 then Char.ofNat (48 + n) else Char.ofNat (87 + n)

def hexByte (n : Nat) : Str := [hexDigit (n / 16), hexDigit (n % 16)]

def uuidFormat (b : List Nat) : Str :=
  let hx := fun (l : List Nat) => (l.map hexByte).flatten
  hx (b.take 4) ++ ['-'] ++ hx ((b.drop 4).take 2) ++ ['-'] ++
    hx ((b.drop 6).take 2) ++ ['-'] ++ hx ((b.drop 8).take 2) ++ ['-'] ++
    hx (b.drop 10)

/-- `generate_company_id` (lines 118-122): `str(uuid.uuid5(NAMESPACE, name))`. -/
def generate_company_id (normalized_name : Str) : Str :=
  let digest := (sha1 (nsBytes ++ utf8Bytes normalized_name)).take 16
  let b6 := digest.getD 6 0
  let b8 := digest.getD 8 0
  uuidFormat ((digest.set 6 (b6 % 16 + 80)).set 8 (b8 % 64 + 128))

/-!
### `difflib.SequenceMatcher(None, a, b).ratio()`

Implemented from the CPython source: `find_longest_match` with the `j2len`
dynamic programming row, first-match tie-breaking (strict `>`), and the
two non-junk extension loops; `get_matching_blocks` recursion summing block
sizes (queue order does not affect the sum).  The autojunk heuristic only
fires for second strings of length >= 200 and is not modelled; every string
this development evaluates the ratio on is far shorter.
-/

/-- `b2j[c]`: ascending list of positions of `c` in `b`. -/
def b2j (b : Str) (c : Char) : List Nat :=
  (List.range b.length).filter (fun j => b.getD j ' ' == c)

structure FlmBest where
  besti : Nat
  bestj : Nat
  bestsize : Nat

def flmInnerStep (j2len : Nat → Nat) (i : Nat)
    (st : (Nat → Nat) × FlmBest) (j : Nat) : (Nat → Nat) × FlmBest :=
  let k := (if j = 0 then 0 else j2len (j - 1)) + 1
  let newj2len := fun x => if x = j then k else st.1 x
  if k > st.2.bestsize then (newj2len, ⟨i + 1 - k, j + 1 - k, k⟩)
  else (newj2len, st.2)

def flmRow (a b : Str) (blo bhi : Nat) (st : (Nat → Nat) × FlmBest)
    (i : Nat) : (Nat → Nat) × FlmBest :=
  let js := ((b2j b (a.getD i ' ')).takeWhile (fun j => j < bhi)).filter
    (fun j => blo ≤ j)
  js.foldl (flmInnerStep st.1 i) ((fun _ => 0), st.2)

def flmCore (a b : Str) (alo ahi blo bhi : Nat) : FlmBest :=
  (((List.range (ahi - alo)).map (· + alo)).foldl (flmRow a b blo bhi)
    ((fun _ => 0), ⟨alo, blo, 0⟩)).2

/-- The low-side extension loop (`while besti > alo and bestj > blo and
a[besti-1] == b[bestj-1]`); recursion is structural on `besti`, which the
loop decrements. -/
def extLow (a b : Str) (alo blo : Nat) : Nat → Nat → Nat → Nat × Nat × Nat
  | 0, bestj, bestsize => (0, bestj, bestsize)
  | besti + 1, bestj, bestsize =>
    if alo < besti + 1 ∧ blo < bestj ∧
        a.getD besti ' ' == b.getD (bestj - 1) ' ' then
      extLow a b alo blo besti (bestj - 1) (bestsize + 1)
    else (besti + 1, bestj, bestsize)

/-- The high-side extension loop; `fuel = ahi - (besti + bestsize)` bounds
the number of iterations, and when it reaches zero the loop condition is
false anyway, so the recursion is faithful. -/
def extHighGo (a b : Str) (ahi bhi besti bestj : Nat) : Nat → Nat → Nat
  | 0, bestsize => bestsize
  | fuel + 1, bestsize =>
    if besti + bestsize < ahi ∧ bestj + bestsize < bhi ∧
        a.getD (besti + bestsize) ' ' == b.getD (bestj + bestsize) ' ' then
      extHighGo a b ahi bhi besti bestj fuel (bestsize + 1)
    else bestsize

def extHigh (a b : Str) (ahi bhi : Nat) (besti bestj bestsize : Nat) : Nat :=
  extHighGo a b ahi bhi besti bestj (ahi - (besti + bestsize)) bestsize

def findLongestMatch (a b : Str) (alo ahi blo bhi : Nat) : Nat × Nat × Nat :=
  let best := flmCore a b alo ahi blo bhi
  let low := extLow a b alo blo best.besti best.bestj best.bestsize
  (low.1, low.2.1, extHigh a b ahi bhi low.1 low.2.1 low.2.2)

/-- Sum of the sizes of all matching blocks (`get_matching_blocks`
recursion; the queue order of CPython does not affect the sum).  The
`find_longest_match` postcondition `alo <= i <= i+k <= ahi` (likewise for
`j`) guarantees each recursive call works on a strictly smaller interval
pair, so `fuel = (ahi - alo) + (bhi - blo)` iterations always suffice and
the fuel never runs out on the intervals actually reached. -/
def matchSumGo (a b : Str) : Nat → Nat → Nat → Nat → Nat → Nat
  | 0, _, _, _, _ => 0
  | fuel + 1, alo, ahi, blo, bhi =>
    let r := findLongestMatch a b alo ahi blo bhi
    if r.2.2 = 0 then 0
    else
      r.2.2 + matchSumGo a b fuel alo r.1 blo r.2.1 +
        matchSumGo a b fuel (r.1 + r.2.2) ahi (r.2.1 + r.2.2) bhi

def matchSum (a b : Str) (alo ahi blo bhi : Nat) : Nat :=
  matchSumGo a b ((ahi - alo) + (bhi - blo) + 1) alo ahi blo bhi

/-- `SequenceMatcher.ratio() > 0.95`.  The float comparison
`2.0 * matches / total > 0.95` agrees with the exact rational comparison
`40 * matches > 19 * total` for every reachable operand size: the two sides
differ by at least `1 / (20 * total)`, far above double rounding error, or
are exactly equal (both rounding to the same double).  An empty total gives
ratio `1.0`. -/
def ratioGt95 (k1 k2 : Str) : Bool :=
  let total := k1.length + k2.length
  if total = 0 then true
  else decide (40 * matchSum k1 k2 0 k1.length 0 k2.length > 19 * total)

/-- Word-level difference cost in tenths of the Python float cost: an exact
token match costs 0, a trailing-s singular/plural pair costs 1 (0.1), any
other mismatch costs 10 (1.0).  On these summands the float comparison
`diff_count < 0.2` of the source agrees exactly with `cost < 2` (note
`0.1 + 0.1 == 0.2` holds in IEEE double arithmetic, so two plural pairs do
not pass the source's test either). -/
def tokenDiffCost10 : List Str → List Str → Nat
  | [], _ => 0
  | _, [] => 0
  | wa :: as, wb :: bs =>
    (if wa == wb then 0
     else if wa ++ ['s'] == wb || wb ++ ['s'] == wa then 1
     else 10) + tokenDiffCost10 as bs

/-- The merge decision of the deduplication pass (lines 178-203). -/
def is_duplicate (k1 k2 : Str) : Bool :=
  if ratioGt95 k1 k2 then true
  else
    let w1 := pySplitWs k1
    let w2 := pySplitWs k2
    if w1.length == w2.length then decide (tokenDiffCost10 w1 w2 < 2)
    else false

/-!
### Data model of `structure_data`

A raw filing is a JSON object whose fields may be absent; `f.get(key)`
yields `None` for an absent field and `f.get(key, d)` yields `d`.  Absent
fields are therefore `Option Str`.  The processed child record of
lines 228-236 stores `f.get(...)` results, so its string fields are still
`Option Str`; the Pydantic schemas of `schemas.py` then require every
string field to be an actual string (`None` fails validation), giving the
validated `Filing`/`Company` shapes.  The `enrichment` field is the constant
empty dict placeholder and carries no information, so it is omitted.
`filing_count` is `len(processed_filings)`, hence modelled as `Nat` (the
schema constraint `ge=0` is automatically satisfied).
-/

structure RawFiling where
  submission_id : Option Str := none
  company_name : Option Str := none
  date_received : Option Str := none
  docket_number : Option Str := none
  proceeding_description : Option Str := none
  submission_type : Option Str := none
  filing_status : Option Str := none
  document_urls : Option Str := none
  detail_url : Option Str := none
deriving DecidableEq

structure ProcessedFiling where
  filing_id : Option Str
  date_received : Option Str
  docket_number : Option Str
  submission_type : Option Str
  filing_status : Option Str
  document_urls : List Str
  detail_url : Option Str
deriving DecidableEq

structure Filing where
  filing_id : Str
  date_received : Str
  docket_number : Str
  submission_type : Str
  filing_status : Str
  document_urls : List Str
  detail_url : Str
deriving DecidableEq

structure Company where
  id : Str
  entity_name : Str
  normalized_name : Str
  entity_type : Str
  is_applicant : Bool
  filing_count : Nat
  filings : List Filing
deriving DecidableEq

structure ErrEntry where
  name : Str
  error : Str
deriving DecidableEq

structure ValidationStats where
  timestamp : Str
  total_processed : Nat
  valid_records : Nat
  invalid_records : Nat
  error_samples : List ErrEntry
deriving DecidableEq

structure StructResult where
  companies : List Company
  errorLog : List ErrEntry
  stats : ValidationStats
deriving DecidableEq

/-- The IPES topic filter (lines 134-138). -/
def ipesCond (f : RawFiling) : Bool :=
  let pd := (f.proceeding_description.getD []).map pyLower
  let dk := (f.docket_number.getD []).map pyLower
  containsSub ("voip".toList) pd || containsSub ("52.15".toList) pd ||
    containsSub ("inbox-52.15".toList) dk

/-- `grouped[key].append(f)` on an insertion-ordered association list. -/
def addToGroup (key : Str) (f : RawFiling) :
    List (Str × List RawFiling) → List (Str × List RawFiling)
  | [] => [(key, [f])]
  | (k, fs) :: rest =>
    if k = key then (k, fs ++ [f]) :: rest
    else (k, fs) :: addToGroup key f rest

/-- One iteration of the grouping loop (lines 134-146). -/
def groupStep (g : List (Str × List RawFiling)) (f : RawFiling) :
    List (Str × List RawFiling) :=
  if ipesCond f then
    let name := pyStrip (f.company_name.getD [])
    if name = [] then g
    else if should_exclude name then g
    else
      let nk := normalize_company_name name
      if nk = [] then g else addToGroup nk f g
  else g

def buildGroups (fs : List RawFiling) : List (Str × List RawFiling) :=
  fs.foldl groupStep []

/-!
### The deduplication pass (lines 155-211)

`keys = sorted(grouped)`; for each not-yet-absorbed key `k1`, every later
not-yet-absorbed key `k2` is tested with `is_duplicate`; a merge appends
`grouped[k2]` to `grouped[k1]` (which keeps its dict position) and deletes
`k2` from the dict and from further consideration.
-/

def lookupGroup (g : List (Str × List RawFiling)) (k : Str) : List RawFiling :=
  match g.find? (fun p => p.1 == k) with
  | some p => p.2
  | none => []

/-- `grouped[k1].extend(grouped[k2]); del grouped[k2]`. -/
def absorbGroup (g : List (Str × List RawFiling)) (k1 k2 : Str) :
    List (Str × List RawFiling) :=
  let v2 := lookupGroup g k2
  (g.map (fun p => if p.1 == k1 then (p.1, p.2 ++ v2) else p)).filter
    (fun p => p.1 != k2)

def dedupInner (k1 : Str) :
    List Str → List Str × List (Str × List RawFiling) →
    List Str × List (Str × List RawFiling)
  | [], st => st
  | k2 :: rest, (skip, g) =>
    if skip.contains k2 then dedupInner k1 rest (skip, g)
    else if is_duplicate k1 k2 then
      dedupInner k1 rest (k2 :: skip, absorbGroup g k1 k2)
    else dedupInner k1 rest (skip, g)

def dedupOuter :
    List Str → List Str × List (Str × List RawFiling) →
    List Str × List (Str × List RawFiling)
  | [], st => st
  | k1 :: rest, (skip, g) =>
    if skip.contains k1 then dedupOuter rest (skip, g)
    else dedupOuter rest (dedupInner k1 rest (skip, g))

def dedupPass (g : List (Str × List RawFiling)) :
    List (Str × List RawFiling) :=
  let keys := List.insertionSort (fun a b : Str => a ≤ b) (g.map (·.1))
  (dedupOuter keys ([], g)).2

/-!
### Record assembly, sorting and validation (lines 216-278)
-/

/-- The child record of lines 228-241, including the semicolon split of
`document_urls` and the pseudo-empty-list cleanup. -/
def mkProcessed (f : RawFiling) : ProcessedFiling :=
  let urls :=
    match f.document_urls with
    | some s => if s = [] then [] else splitSemi s
    | none => []
  let urls2 := if urls = [] ∨ urls = [[]] then [] else urls
  { filing_id := f.submission_id, date_received := f.date_received,
    docket_number := f.docket_number, submission_type := f.submission_type,
    filing_status := f.filing_status, document_urls := urls2,
    detail_url := f.detail_url }

/-- `processed_filings.sort(key=lambda x: x.get("date_received", ""),
reverse=True)` (line 244).  The key is the stored `date_received` value,
which is `None` when the raw field was absent; CPython's sort compares the
keys with `<`, and comparing `None` raises `TypeError`.  With at most one
element no comparison happens; with two or more elements the binary
insertion phase compares every element at least once, so any `None` key
raises.  Otherwise the result is the stable descending sort. -/
def sortFilingsDesc (pfs : List ProcessedFiling) :
    Except Unit (List ProcessedFiling) :=
  if pfs.length ≤ 1 then .ok pfs
  else if pfs.any (fun pf => pf.date_received.isNone) then .error ()
  else .ok (List.insertionSort
    (fun x y => y.date_received.getD [] ≤ x.date_received.getD []) pfs)

/-- Pydantic validation of one child `Filing` (schemas.py, lines 5-18):
every string field must be an actual string, not `None`. -/
def validateFiling (pf : ProcessedFiling) : Option Filing :=
  match pf.filing_id, pf.date_received, pf.docket_number, pf.submission_type,
      pf.filing_status, pf.detail_url with
  | some a, some b, some c, some d, some e, some f =>
    some ⟨a, b, c, d, e, pf.document_urls, f⟩
  | _, _, _, _, _, _ => none

def validateFilings : List ProcessedFiling → Option (List Filing)
  | [] => some []
  | pf :: rest =>
    match validateFiling pf, validateFilings rest with
    | some f, some fs => some (f :: fs)
    | _, _ => none

/-- `max(all_names, key=len)`: first name of maximal length. -/
def maxByLen (names : List Str) : Str :=
  match names with
  | [] => []
  | n :: rest => rest.foldl (fun acc x => if x.length > acc.length then x else acc) n

/-- Process one surviving cluster (lines 216-271): build the child records,
sort them, assemble the parent record, apply the emission gate and
validate.  Returns the emitted company (if any) and the logged validation
error (if any); a `TypeError` from the sort aborts the whole batch. -/
def processCluster (key : Str) (fs : List RawFiling) :
    Except Unit (Option Company × Option ErrEntry) :=
  let all_names := fs.map (fun f => f.company_name.getD [])
  let primary := if all_names.isEmpty then key else maxByLen all_names
  let isInd := is_likely_individual primary
  let hasApp := fs.any (fun f => is_application_type f.submission_type)
  match sortFilingsDesc (fs.map mkProcessed) with
  | .error e => .error e
  | .ok sorted =>
    if hasApp && !isInd then
      match validateFilings sorted with
      | some vfs =>
        .ok (some { id := generate_company_id key, entity_name := primary,
                    normalized_name := key,
                    entity_type :=
                      if isInd then "Individual".toList else "Company".toList,
                    is_applicant := hasApp, filing_count := sorted.length,
                    filings := vfs }, none)
      | none => .ok (none, some ⟨key, "ValidationError".toList⟩)
    else
      .ok (none, none)

/-- The `for normalized_name, company_filings in grouped.items()` loop,
in dict order; companies and error-log entries accumulate in that order. -/
def processClusters :
    List (Str × List RawFiling) → Except Unit (List Company × List ErrEntry)
  | [] => .ok ([], [])
  | (k, fs) :: rest =>
    match processCluster k fs with
    | .error e => .error e
    | .ok r =>
      match processClusters rest with
      | .error e => .error e
      | .ok (cs, errs) =>
        match r with
        | (some c, _) => .ok (c :: cs, errs)
        | (none, some e) => .ok (cs, e :: errs)
        | (none, none) => .ok (cs, errs)

/-- The sort key of the final company sort (lines 275-278):
`x.get("latest_filing_date", "")`.  No emitted record carries a
`latest_filing_date` key, so the key is `""` for every element. -/
def latestKey (_ : Company) : Str := []

def finalSortByLatest (cs : List Company) : List Company :=
  List.insertionSort (fun x y => latestKey y ≤ latestKey x) cs

/-- `structure_data` (lines 125-311) as a pure function of the input batch
and of the wall-clock timestamp `now` (the only ambient input the stats
object reads).  The persisted side effect on the history store is modelled
separately by `persistStats`. -/
def structure_data (now : Str) (filings : List RawFiling) :
    Except Unit StructResult :=
  match processClusters (dedupPass (buildGroups filings)) with
  | .error e => .error e
  | .ok (cs, errs) =>
    let sortedCs := finalSortByLatest cs
    .ok { companies := sortedCs, errorLog := errs,
          stats := { timestamp := now,
                     total_processed := sortedCs.length + errs.length,
                     valid_records := sortedCs.length,
                     invalid_records := errs.length,
                     error_samples := errs.take 5 } }

/-!
### The persisted validation-stats history (lines 290-309)

The file state before the run is one of: missing, containing a JSON list,
containing some other JSON value, or unreadable/malformed.  The run
loads the history accordingly (a fresh empty history on the failure cases),
appends the new stats object and writes the result back.
-/

inductive StoreState where
  | missing
  | loadedList (l : List ValidationStats)
  | loadedSingle (s : ValidationStats)
  | loadFailed
deriving DecidableEq

def loadHistory : StoreState → List ValidationStats
  | .missing => []
  | .loadedList l => l
  | .loadedSingle s => [s]
  | .loadFailed => []

def persistStats (prior : StoreState) (s : ValidationStats) :
    List ValidationStats :=
  loadHistory prior ++ [s]

/-!
### Concrete instances used by the claims

`RawFiling` constructor field order: `submission_id`, `company_name`,
`date_received`, `docket_number`, `proceeding_description`,
`submission_type`, `filing_status`, `document_urls`, `detail_url`.
-/

/-- First raw filing of the end-to-end scenario, exactly as stated (only
the four mentioned keys are present). -/
def acmeFiling1 : RawFiling :=
  ⟨none, some ("Acme Communications LLC".toList), some ("2023-05-01".toList),
   none, none, some ("APPLICATION FOR AUTHORIZATION".toList), none,
   some ("http://x/doc1".toList), none⟩

/-- Second raw filing of the end-to-end scenario, exactly as stated. -/
def acmeFiling2 : RawFiling :=
  ⟨none, some ("Acme Communications".toList), some ("2023-06-01".toList),
   none, none, some ("APPLICATION".toList), none, some [], none⟩

/-- `acmeFiling1` amended so that it reaches the emission stage: marked as
VoIP-related and carrying (empty-string) values for the remaining fields
the schema requires. -/
def acmeFiling1A : RawFiling :=
  ⟨some [], some ("Acme Communications LLC".toList), some ("2023-05-01".toList),
   some [], some ("voip".toList), some ("APPLICATION FOR AUTHORIZATION".toList),
   some [], some ("http://x/doc1".toList), some []⟩

/-- `acmeFiling2` amended in the same way. -/
def acmeFiling2A : RawFiling :=
  ⟨some [], some ("Acme Communications".toList), some ("2023-06-01".toList),
   some [], some ("voip".toList), some ("APPLICATION".toList), some [],
   some [], some []⟩

/-- A VoIP filing with a company name and nothing else: its
`date_received` key is absent. -/
def nodateFiling : RawFiling :=
  ⟨none, some ("Acme LLC".toList), none, none, some ("voip".toList), none,
   none, none, none⟩

/-- A VoIP application filing that fails schema validation (its
`submission_id`, `docket_number`, `filing_status` and `detail_url` keys are
absent, so the child records carry `None` in required string fields). -/
def betaFiling : RawFiling :=
  ⟨none, some ("Beta Communications LLC".toList), some ("2023-05-01".toList),
   none, some ("voip".toList), some ("APPLICATION".toList), none, none, none⟩

def emptyResult : StructResult := ⟨[], [], ⟨[], 0, 0, 0, []⟩⟩

def runOf (now : Str) (fs : List RawFiling) : StructResult :=
  match structure_data now fs with
  | .ok r => r
  | .error _ => emptyResult

/-- Result of the amended end-to-end scenario. -/
def amendedRun : StructResult := runOf ("t0".toList) [acmeFiling1A, acmeFiling2A]

/-- Result of a run on the first amended filing alone. -/
def runAcmeLong : StructResult := runOf ("t1".toList) [acmeFiling1A]

/-- Result of a separate run on the second amended filing alone. -/
def runAcmeShort : StructResult := runOf ("t2".toList) [acmeFiling2A]

/-- Result of a run with one valid company and one validation failure. -/
def mixedRun : StructResult := runOf ("t3".toList) [acmeFiling1A, betaFiling]

def firstCompany (r : StructResult) : Company :=
  match r.companies with
  | c :: _ => c
  | [] => ⟨[], [], [], [], false, 0, []⟩

/-!
### Token-level view of normalized strings (used by the idempotence proof)
-/

/-- All suffix literals of the three patterns. -/
def suffixLits : List Str := (alts1 ++ alts2 ++ alts3).map Alt.lit

/-- Join tokens with single spaces (inverse of `pySplitWs` on clean input). -/
def joinT : List Str → Str
  | [] => []
  | [r] => r
  | r :: s :: rest => r ++ ' ' :: joinT (s :: rest)

/-- Every filing stored in a grouping structure passed the topic filter. -/
def GroupInv (g : List (Str × List RawFiling)) : Prop :=
  ∀ k l f, (k, l) ∈ g → f ∈ l → ipesCond f = true

/-!
## Theorems
-/

/-- **C1, counterexample.**  On the batch consisting of exactly the two
stated raw filings, the core transformation emits no Company at all (the
claim asserts exactly one): neither record carries a `proceeding_description`
or `docket_number` matching the VoIP topic filter, so both are dropped
before grouping. -/
theorem c1_counterexample :
    (structure_data ("t0".toList) [acmeFiling1, acmeFiling2]).map
      (fun r => r.companies) = .ok [] := by decide

/-- **C1, amended.**  If the two stated filings additionally carry a
`proceeding_description` containing `voip` and (empty-string) values for the
schema-required fields `submission_id`, `docket_number`, `filing_status` and
`detail_url`, the transformation emits exactly one Company with
`entity_name = "Acme Communications LLC"`, `filing_count = 2`, filings
ordered `2023-06-01` before `2023-05-01`, `entity_type = "Company"` and
`is_applicant = true`. -/
theorem c1_amended (now : Str) :
    (structure_data now [acmeFiling1A, acmeFiling2A]).map
      (fun r => r.companies.map (fun c =>
        (c.entity_name, c.filing_count,
         c.filings.map (fun f => f.date_received),
         c.entity_type, c.is_applicant))) =
    .ok [("Acme Communications LLC".toList, 2,
          ["2023-06-01".toList, "2023-05-01".toList],
          "Company".toList, true)] := rfl

/-- **C4.**  A batch of two raw filings that pass the topic filter and carry
a company name but no `date_received` key makes the core transformation
raise: the child records store `None` for the date, and the
`processed_filings.sort` key comparison on `None` raises `TypeError`, which
nothing catches.  This contradicts the claim that missing fields are treated
permissively and processing never raises. -/
theorem c4_sort_raises :
    structure_data ("t0".toList) [nodateFiling, nodateFiling] =
      .error () := by decide

/-- **C2, counterexample.**  The normalizer is not idempotent: on
`"a dba!b"` the `d/b/a` truncation does not fire (the marker is followed by
`!`, not whitespace), but the later punctuation pass rewrites `!` to a
space, so the output is `"a dba b"` — on which a second normalization fires
the truncation and returns `"a"`. -/
theorem c2_counterexample :
    normalize_company_name (normalize_company_name ("a dba!b".toList)) ≠
      normalize_company_name ("a dba!b".toList) := by decide

/-- **C3, counterexample.**  The keys `"ab cd"` and `"abs cds"` split into
the same number of tokens and every aligned pair differs only by a trailing
pluralizing `s` — yet they do not merge: two plural pairs cost
`0.1 + 0.1 = 0.2`, which is not `< 0.2` (the IEEE sum is exact), and the
sequence ratio `10/12` is below `0.95`. -/
theorem c3_counterexample :
    (pySplitWs ("ab cd".toList)).length =
      (pySplitWs ("abs cds".toList)).length ∧
    ((pySplitWs ("ab cd".toList)).zip (pySplitWs ("abs cds".toList))).all
      (fun p => p.1 == p.2 || p.1 ++ ['s'] == p.2 || p.2 ++ ['s'] == p.1) =
      true ∧
    is_duplicate ("ab cd".toList) ("abs cds".toList) = false := by decide

theorem tokenDiffCost10_eq_zero :
    ∀ (w1 w2 : List Str),
      (w1.zip w2).countP (fun p => p.1 != p.2) = 0 →
      tokenDiffCost10 w1 w2 = 0 := by
  intro w1
  induction w1 with
  | nil => intro w2 _; simp [tokenDiffCost10]
  | cons wa as ih =>
    intro w2 h
    cases w2 with
    | nil => simp [tokenDiffCost10]
    | cons wb bs =>
      rw [List.zip_cons_cons, List.countP_cons] at h
      by_cases heq : wa = wb
      · have hif : (if (wa, wb).1 != (wa, wb).2 then 1 else 0) = 0 := by
          simp [heq]
        rw [hif] at h
        subst heq
        simp [tokenDiffCost10, ih bs (by omega)]
      · have hif : (if (wa, wb).1 != (wa, wb).2 then 1 else 0) = 1 := by
          simp [heq]
        rw [hif] at h
        omega

theorem tokenDiffCost10_lt_two :
    ∀ (w1 w2 : List Str),
      ((w1.zip w2).all
        (fun p => p.1 == p.2 || p.1 ++ ['s'] == p.2 || p.2 ++ ['s'] == p.1)) =
        true →
      (w1.zip w2).countP (fun p => p.1 != p.2) ≤ 1 →
      tokenDiffCost10 w1 w2 < 2 := by
  intro w1
  induction w1 with
  | nil => intro w2 _ _; simp [tokenDiffCost10]
  | cons wa as ih =>
    intro w2 hall hcount
    cases w2 with
    | nil => simp [tokenDiffCost10]
    | cons wb bs =>
      rw [List.zip_cons_cons, List.all_cons, Bool.and_eq_true] at hall
      obtain ⟨hpair, htail⟩ := hall
      rw [List.zip_cons_cons, List.countP_cons] at hcount
      by_cases heq : wa = wb
      · have hif : (if (wa, wb).1 != (wa, wb).2 then 1 else 0) = 0 := by
          simp [heq]
        rw [hif] at hcount
        have hrec := ih bs htail (by omega)
        subst heq
        simp only [tokenDiffCost10, beq_self_eq_true, if_true]
        omega
      · have hif : (if (wa, wb).1 != (wa, wb).2 then 1 else 0) = 1 := by
          simp [heq]
        rw [hif] at hcount
        have hz := tokenDiffCost10_eq_zero as bs (by omega)
        have hbeq : (wa == wb) = false := beq_eq_false_iff_ne.mpr heq
        have hplural : (wa ++ ['s'] == wb || wb ++ ['s'] == wa) = true := by
          simp only [hbeq, Bool.false_or] at hpair
          exact hpair
        simp only [tokenDiffCost10, hbeq, Bool.false_eq_true, if_false,
          hplural, if_true, hz]
        omega

/-- **C3, amended.**  Two normalized keys merge whenever they split into the
same number of whitespace-delimited tokens, every aligned token pair matches
exactly or differs only by a trailing pluralizing `s`, and **at most one**
pair is such a plural pair (two or more plural pairs reach the `0.2`
threshold and do not merge through the token rule). -/
theorem c3_amended (k1 k2 : Str)
    (hlen : (pySplitWs k1).length = (pySplitWs k2).length)
    (hpairs : (((pySplitWs k1).zip (pySplitWs k2)).all
      (fun p => p.1 == p.2 || p.1 ++ ['s'] == p.2 || p.2 ++ ['s'] == p.1)) =
      true)
    (hcount : ((pySplitWs k1).zip (pySplitWs k2)).countP
      (fun p => p.1 != p.2) ≤ 1) :
    is_duplicate k1 k2 = true := by
  unfold is_duplicate
  split
  · rfl
  · have hc := tokenDiffCost10_lt_two _ _ hpairs hcount
    simp [hlen, hc]

theorem c3_amended_witness :
    (pySplitWs ("stratus network".toList)).length =
      (pySplitWs ("stratus networks".toList)).length ∧
    is_duplicate ("stratus network".toList) ("stratus networks".toList) =
      true :=
  ⟨by decide, c3_amended ("stratus network".toList)
    ("stratus networks".toList) (by decide) (by decide) (by decide)⟩

/-- **C9.**  The stats record of a completed batch run carries the
timestamp, the valid and invalid counts, their total, and at most five
error samples taken from the front of the error log; persisting appends the
record to the loaded history, and a missing or malformed store yields a
fresh empty history. -/
theorem c9_stats (now : Str) (fs : List RawFiling) (r : StructResult)
    (prior : StoreState) (h : structure_data now fs = .ok r) :
    r.stats.timestamp = now ∧
    r.stats.valid_records = r.companies.length ∧
    r.stats.invalid_records = r.errorLog.length ∧
    r.stats.total_processed =
      r.stats.valid_records + r.stats.invalid_records ∧
    r.stats.error_samples = r.errorLog.take 5 ∧
    r.stats.error_samples.length ≤ 5 ∧
    persistStats prior r.stats = loadHistory prior ++ [r.stats] ∧
    loadHistory StoreState.missing = [] ∧
    loadHistory StoreState.loadFailed = [] := by
  unfold structure_data at h
  cases hp : processClusters (dedupPass (buildGroups fs)) with
  | error e => rw [hp] at h; exact absurd h (by simp)
  | ok p =>
    rw [hp] at h
    obtain ⟨cs, errs⟩ := p
    simp only [Except.ok.injEq] at h
    subst h
    refine ⟨rfl, rfl, rfl, rfl, rfl, ?_, rfl, rfl, rfl⟩
    simp [List.length_take]

set_option maxRecDepth 8000 in
theorem c9_witness :
    mixedRun.stats.timestamp = "t3".toList ∧
    mixedRun.stats.valid_records = mixedRun.companies.length ∧
    mixedRun.stats.invalid_records = mixedRun.errorLog.length ∧
    mixedRun.stats.total_processed =
      mixedRun.stats.valid_records + mixedRun.stats.invalid_records ∧
    mixedRun.stats.error_samples = mixedRun.errorLog.take 5 ∧
    mixedRun.stats.error_samples.length ≤ 5 ∧
    persistStats StoreState.missing mixedRun.stats =
      loadHistory StoreState.missing ++ [mixedRun.stats] ∧
    loadHistory StoreState.missing = [] ∧
    loadHistory StoreState.loadFailed = [] :=
  c9_stats ("t3".toList) [acmeFiling1A, betaFiling] mixedRun
    StoreState.missing (by decide)

theorem addToGroup_inv (key : Str) (f0 : RawFiling)
    (hf0 : ipesCond f0 = true) :
    ∀ acc : List (Str × List RawFiling), GroupInv acc →
      GroupInv (addToGroup key f0 acc) := by
  intro acc
  induction acc with
  | nil =>
    intro _ k l f hmem hfg
    simp [addToGroup] at hmem
    obtain ⟨_, hg⟩ := hmem
    subst hg
    simp at hfg
    subst hfg
    exact hf0
  | cons p rest ih =>
    intro hacc k l f hmem hfg
    obtain ⟨k1, g1⟩ := p
    unfold addToGroup at hmem
    by_cases he : k1 = key
    · simp only [he, if_true] at hmem
      rcases List.mem_cons.mp hmem with hhd | htl
      · obtain ⟨hk, hg⟩ := Prod.mk.injEq .. ▸ hhd
        subst hg
        rcases List.mem_append.mp hfg with hf1 | hf2
        · exact hacc key g1 f (by simp [he]) hf1
        · simp at hf2; subst hf2; exact hf0
      · exact hacc k l f (List.mem_cons_of_mem _ htl) hfg
    · simp only [he, if_false] at hmem
      rcases List.mem_cons.mp hmem with hhd | htl
      · exact hacc k l f (hhd ▸ List.mem_cons_self _ _) hfg
      · exact ih (fun k' l' f' hm => hacc k' l' f'
          (List.mem_cons_of_mem _ hm)) k l f htl hfg

theorem groupStep_inv (acc : List (Str × List RawFiling)) (f0 : RawFiling)
    (hacc : GroupInv acc) : GroupInv (groupStep acc f0) := by
  by_cases h0 : ipesCond f0
  · by_cases h1 : pyStrip (f0.company_name.getD []) = []
    · simpa [groupStep, h0, h1] using hacc
    · by_cases h2 : should_exclude (pyStrip (f0.company_name.getD [])) = true
      · simpa [groupStep, h0, h1, h2] using hacc
      · by_cases h3 :
            normalize_company_name (pyStrip (f0.company_name.getD [])) = []
        · simpa [groupStep, h0, h1, h2, h3] using hacc
        · have hadd := addToGroup_inv
            (normalize_company_name (pyStrip (f0.company_name.getD [])))
            f0 h0 acc hacc
          simpa [groupStep, h0, h1, h2, h3] using hadd
  · simpa [groupStep, h0] using hacc

theorem foldl_groupStep_inv :
    ∀ (fs : List RawFiling) (acc : List (Str × List RawFiling)),
      GroupInv acc → GroupInv (fs.foldl groupStep acc)
  | [], _, hacc => hacc
  | f :: rest, acc, hacc =>
    foldl_groupStep_inv rest (groupStep acc f) (groupStep_inv acc f hacc)

theorem foldl_groupStep_filter :
    ∀ (fs : List RawFiling) (acc : List (Str × List RawFiling)),
      fs.foldl groupStep acc = (fs.filter ipesCond).foldl groupStep acc := by
  intro fs
  induction fs with
  | nil => intro acc; rfl
  | cons f rest ih =>
    intro acc
    by_cases hf : ipesCond f
    · simp only [List.filter_cons, hf, if_true, List.foldl_cons]
      exact ih (groupStep acc f)
    · have hstep : groupStep acc f = acc := by
        unfold groupStep; simp [hf]
      simp only [List.filter_cons, hf, Bool.false_eq_true, if_false,
        List.foldl_cons, hstep]
      exact ih acc

/-- **C10.**  The undocumented topic filter: the transformation's output is
unchanged when every raw filing failing the VoIP/52.15 condition is removed
beforehand (those filings are silently dropped and can never contribute to
any emitted Company), and every filing stored in any group passed the
condition. -/
theorem c10_topic_filter :
    (∀ (now : Str) (fs : List RawFiling),
      structure_data now fs = structure_data now (fs.filter ipesCond)) ∧
    (∀ (fs : List RawFiling) (key : Str) (g : List RawFiling) (f : RawFiling),
      (key, g) ∈ buildGroups fs → f ∈ g → ipesCond f = true) := by
  constructor
  · intro now fs
    unfold structure_data buildGroups
    rw [foldl_groupStep_filter]
  · intro fs key g f hmem hf
    exact foldl_groupStep_inv fs [] (fun _ _ _ h => by simp at h)
      key g f hmem hf

theorem c10_witness : ipesCond acmeFiling1A = true :=
  c10_topic_filter.2 [acmeFiling1A] ("acme communications".toList)
    [acmeFiling1A] acmeFiling1A (by decide) (by decide)

/-!
### Facts about every emitted Company
-/

theorem processCluster_emit {key : Str} {fs : List RawFiling} {c : Company}
    {eo : Option ErrEntry}
    (h : processCluster key fs = .ok (some c, eo)) :
    ∃ sorted vfs,
      sortFilingsDesc (fs.map mkProcessed) = .ok sorted ∧
      validateFilings sorted = some vfs ∧
      (fs.any fun f => is_application_type f.submission_type) = true ∧
      c.id = generate_company_id key ∧
      c.normalized_name = key ∧
      c.entity_type = "Company".toList ∧
      c.is_applicant = true ∧
      c.filing_count = sorted.length ∧
      c.filings = vfs := by
  unfold processCluster at h
  cases hs : sortFilingsDesc (fs.map mkProcessed) with
  | error e => rw [hs] at h; exact absurd h (by simp)
  | ok sorted =>
    rw [hs] at h
    dsimp only at h
    split at h <;>
    · split at h
      · rename_i hgate
        rw [Bool.and_eq_true] at hgate
        obtain ⟨happ, hind⟩ := hgate
        rw [Bool.not_eq_eq_eq_not, Bool.not_true] at hind
        cases hv : validateFilings sorted with
        | some vfs =>
          rw [hv] at h
          simp only [Except.ok.injEq, Prod.mk.injEq, Option.some.injEq] at h
          obtain ⟨hc, _⟩ := h
          refine ⟨sorted, vfs, rfl, hv, happ, ?_, ?_, ?_, ?_, ?_, ?_⟩ <;>
            rw [← hc] <;> simp [hind, happ]
        | none => rw [hv] at h; exact absurd h (by simp)
      · exact absurd h (by simp)

theorem processClusters_mem :
    ∀ (clusters : List (Str × List RawFiling)) (cs : List Company)
      (errs : List ErrEntry),
      processClusters clusters = .ok (cs, errs) → ∀ c ∈ cs,
      ∃ key fsc eo, (key, fsc) ∈ clusters ∧
        processCluster key fsc = .ok (some c, eo) := by
  intro clusters
  induction clusters with
  | nil =>
    intro cs errs h c hc
    simp only [processClusters, Except.ok.injEq, Prod.mk.injEq] at h
    obtain ⟨h1, _⟩ := h
    subst h1
    simp at hc
  | cons p rest ih =>
    intro cs errs h c hc
    obtain ⟨k, fsc⟩ := p
    unfold processClusters at h
    cases hpc : processCluster k fsc with
    | error e => rw [hpc] at h; exact absurd h (by simp)
    | ok r =>
      rw [hpc] at h
      cases hrest : processClusters rest with
      | error e => rw [hrest] at h; exact absurd h (by simp)
      | ok q =>
        rw [hrest] at h
        obtain ⟨cs', errs'⟩ := q
        obtain ⟨oc, oe⟩ := r
        cases oc with
        | some c' =>
          simp only [Except.ok.injEq, Prod.mk.injEq] at h
          obtain ⟨hcs, _⟩ := h
          subst hcs
          rcases List.mem_cons.mp hc with hceq | hcm
          · subst hceq
            exact ⟨k, fsc, oe, List.mem_cons_self _ _, hpc⟩
          · obtain ⟨key, fsc', eo, hmem, hp⟩ := ih cs' errs' hrest c hcm
            exact ⟨key, fsc', eo, List.mem_cons_of_mem _ hmem, hp⟩
        | none =>
          cases oe with
          | some e' =>
            simp only [Except.ok.injEq, Prod.mk.injEq] at h
            obtain ⟨hcs, _⟩ := h
            subst hcs
            obtain ⟨key, fsc', eo, hmem, hp⟩ := ih cs' errs' hrest c hc
            exact ⟨key, fsc', eo, List.mem_cons_of_mem _ hmem, hp⟩
          | none =>
            simp only [Except.ok.injEq, Prod.mk.injEq] at h
            obtain ⟨hcs, _⟩ := h
            subst hcs
            obtain ⟨key, fsc', eo, hmem, hp⟩ := ih cs' errs' hrest c hc
            exact ⟨key, fsc', eo, List.mem_cons_of_mem _ hmem, hp⟩

theorem structure_data_mem {now : Str} {fs : List RawFiling}
    {r : StructResult} (h : structure_data now fs = .ok r) :
    ∀ c ∈ r.companies, ∃ key fsc eo,
      (key, fsc) ∈ dedupPass (buildGroups fs) ∧
      processCluster key fsc = .ok (some c, eo) := by
  intro c hc
  unfold structure_data at h
  cases hp : processClusters (dedupPass (buildGroups fs)) with
  | error e => rw [hp] at h; exact absurd h (by simp)
  | ok p =>
    rw [hp] at h
    obtain ⟨cs, errs⟩ := p
    simp only [Except.ok.injEq] at h
    subst h
    dsimp only [finalSortByLatest] at hc
    have hmem : c ∈ cs := (List.perm_insertionSort _ cs).mem_iff.mp hc
    exact processClusters_mem _ _ _ hp c hmem

theorem validateFilings_length :
    ∀ (l : List ProcessedFiling) (v : List Filing),
      validateFilings l = some v → v.length = l.length := by
  intro l
  induction l with
  | nil =>
    intro v h
    simp only [validateFilings, Option.some.injEq] at h
    subst h; rfl
  | cons pf rest ih =>
    intro v h
    unfold validateFilings at h
    cases hv : validateFiling pf with
    | none => rw [hv] at h; exact absurd h (by simp)
    | some f =>
      rw [hv] at h
      cases hr : validateFilings rest with
      | none => rw [hr] at h; exact absurd h (by simp)
      | some fs2 =>
        rw [hr] at h
        simp only [Option.some.injEq] at h
        subst h
        simp [ih fs2 hr]

theorem validateFilings_mem_forward :
    ∀ (l : List ProcessedFiling) (v : List Filing),
      validateFilings l = some v → ∀ pf ∈ l,
      ∃ vf ∈ v, validateFiling pf = some vf := by
  intro l
  induction l with
  | nil => intro v _ pf hpf; simp at hpf
  | cons pf0 rest ih =>
    intro v h pf hpf
    unfold validateFilings at h
    cases hv : validateFiling pf0 with
    | none => rw [hv] at h; exact absurd h (by simp)
    | some f =>
      rw [hv] at h
      cases hr : validateFilings rest with
      | none => rw [hr] at h; exact absurd h (by simp)
      | some fs2 =>
        rw [hr] at h
        simp only [Option.some.injEq] at h
        subst h
        rcases List.mem_cons.mp hpf with hpe | hpm
        · subst hpe; exact ⟨f, List.mem_cons_self _ _, hv⟩
        · obtain ⟨vf, hvm, hve⟩ := ih fs2 hr pf hpm
          exact ⟨vf, List.mem_cons_of_mem _ hvm, hve⟩

theorem validateFilings_mem_back :
    ∀ (l : List ProcessedFiling) (v : List Filing),
      validateFilings l = some v → ∀ vf ∈ v,
      ∃ pf ∈ l, validateFiling pf = some vf := by
  intro l
  induction l with
  | nil =>
    intro v h vf hvf
    simp only [validateFilings, Option.some.injEq] at h
    subst h; simp at hvf
  | cons pf0 rest ih =>
    intro v h vf hvf
    unfold validateFilings at h
    cases hv : validateFiling pf0 with
    | none => rw [hv] at h; exact absurd h (by simp)
    | some f =>
      rw [hv] at h
      cases hr : validateFilings rest with
      | none => rw [hr] at h; exact absurd h (by simp)
      | some fs2 =>
        rw [hr] at h
        simp only [Option.some.injEq] at h
        subst h
        rcases List.mem_cons.mp hvf with hve | hvm
        · subst hve; exact ⟨pf0, List.mem_cons_self _ _, hv⟩
        · obtain ⟨pf, hpm, hpe⟩ := ih fs2 hr vf hvm
          exact ⟨pf, List.mem_cons_of_mem _ hpm, hpe⟩

theorem validateFiling_fields {pf : ProcessedFiling} {vf : Filing}
    (h : validateFiling pf = some vf) :
    pf.date_received = some vf.date_received ∧
    pf.submission_type = some vf.submission_type := by
  unfold validateFiling at h
  split at h
  · rename_i a b cx d e f ha hb hcx hd he hf
    simp only [Option.some.injEq] at h
    subst h
    exact ⟨hb, hd⟩
  · exact absurd h (by simp)

theorem sortFilingsDesc_perm {pfs sorted : List ProcessedFiling}
    (h : sortFilingsDesc pfs = .ok sorted) : sorted.Perm pfs := by
  unfold sortFilingsDesc at h
  split at h
  · rw [Except.ok.injEq] at h
    exact h ▸ List.Perm.refl _
  · split at h
    · exact absurd h (by simp)
    · rw [Except.ok.injEq] at h
      exact h ▸ List.perm_insertionSort _ _

theorem sortFilingsDesc_sorted {pfs sorted : List ProcessedFiling}
    (h : sortFilingsDesc pfs = .ok sorted) :
    List.Pairwise
      (fun x y => y.date_received.getD [] ≤ x.date_received.getD [])
      sorted := by
  unfold sortFilingsDesc at h
  split at h
  · rename_i hlen
    rw [Except.ok.injEq] at h
    subst h
    match pfs, hlen with
    | [], _ => exact List.Pairwise.nil
    | [x], _ => exact List.pairwise_singleton _ _
  · split at h
    · exact absurd h (by simp)
    · rw [Except.ok.injEq] at h
      subst h
      exact @List.sorted_insertionSort ProcessedFiling
        (fun x y => y.date_received.getD [] ≤ x.date_received.getD [])
        (fun _ _ => inferInstanceAs (Decidable (_ ≤ _)))
        ⟨fun _ _ => le_total _ _⟩
        ⟨fun _ _ _ h1 h2 => le_trans h2 h1⟩ pfs

theorem validateFilings_pairwise {l : List ProcessedFiling} {v : List Filing}
    (h : validateFilings l = some v)
    (hp : List.Pairwise
      (fun x y => y.date_received.getD [] ≤ x.date_received.getD []) l) :
    List.Pairwise (fun a b => b.date_received ≤ a.date_received) v := by
  induction l generalizing v with
  | nil =>
    simp only [validateFilings, Option.some.injEq] at h
    subst h; exact List.Pairwise.nil
  | cons pf0 rest ih =>
    unfold validateFilings at h
    cases hv : validateFiling pf0 with
    | none => rw [hv] at h; exact absurd h (by simp)
    | some f =>
      rw [hv] at h
      cases hr : validateFilings rest with
      | none => rw [hr] at h; exact absurd h (by simp)
      | some fs2 =>
        rw [hr] at h
        simp only [Option.some.injEq] at h
        subst h
        rw [List.pairwise_cons] at hp ⊢
        obtain ⟨hhead, htail⟩ := hp
        refine ⟨?_, ih hr htail⟩
        intro b hb
        obtain ⟨pf', hpm, hpe⟩ := validateFilings_mem_back rest fs2 hr b hb
        have h1 := (validateFiling_fields hv).1
        have h2 := (validateFiling_fields hpe).1
        have := hhead pf' hpm
        rw [h1, h2] at this
        simpa using this

theorem strNilLe (l : Str) : ([] : Str) ≤ l := by
  cases l with
  | nil => exact le_refl _
  | cons c cs => exact le_of_lt (by exact List.Lex.nil)

theorem strLe_nil_eq {l : Str} (h : l ≤ []) : l = [] :=
  le_antisymm h (strNilLe l)

/-- **C5.**  The emitted identifier is a pure function of the normalized
name: two companies emitted by any two runs (any batches, any timestamps)
with equal `normalized_name` carry equal `id`. -/
theorem c5_deterministic_id (now1 now2 : Str) (b1 b2 : List RawFiling)
    (r1 r2 : StructResult) (cA cB : Company)
    (h1 : structure_data now1 b1 = .ok r1)
    (h2 : structure_data now2 b2 = .ok r2)
    (hm1 : cA ∈ r1.companies) (hm2 : cB ∈ r2.companies)
    (hn : cA.normalized_name = cB.normalized_name) : cA.id = cB.id := by
  obtain ⟨k1, fs1, eo1, _, hp1⟩ := structure_data_mem h1 cA hm1
  obtain ⟨k2, fs2, eo2, _, hp2⟩ := structure_data_mem h2 cB hm2
  obtain ⟨_, _, _, _, _, hidA, hnA, _, _, _, _⟩ := processCluster_emit hp1
  obtain ⟨_, _, _, _, _, hidB, hnB, _, _, _, _⟩ := processCluster_emit hp2
  rw [hidA, hidB, ← hnA, ← hnB, hn]

set_option maxRecDepth 8000 in
theorem c5_witness :
    (firstCompany runAcmeLong).id = (firstCompany runAcmeShort).id :=
  c5_deterministic_id ("t1".toList) ("t2".toList) [acmeFiling1A]
    [acmeFiling2A] runAcmeLong runAcmeShort (firstCompany runAcmeLong)
    (firstCompany runAcmeShort) (by decide) (by decide) (by decide)
    (by decide) (by decide)

/-- **C6.**  A Company is emitted only if its cluster is not classified as
an individual (`entity_type = "Company"`) and contains at least one filing
whose uppercased `submission_type` contains `APPLICATION`, `REQUEST` or
`PETITION`; the witnessing filing survives into the emitted record.  In
particular a cluster whose filings all carry `submission_type = "COMMENT"`
is never emitted. -/
theorem c6_emission_gate (now : Str) (fs : List RawFiling) (r : StructResult)
    (h : structure_data now fs = .ok r) :
    ∀ c ∈ r.companies, c.entity_type = "Company".toList ∧
      c.is_applicant = true ∧
      ∃ vf ∈ c.filings, is_application_type (some vf.submission_type) = true := by
  intro c hc
  obtain ⟨key, fsc, eo, _, hp⟩ := structure_data_mem h c hc
  obtain ⟨sorted, vfs, hs, hv, happ, _, _, het, hap, _, hfl⟩ :=
    processCluster_emit hp
  refine ⟨het, hap, ?_⟩
  rw [List.any_eq_true] at happ
  obtain ⟨f, hf, happf⟩ := happ
  have hpf : mkProcessed f ∈ fsc.map mkProcessed :=
    List.mem_map_of_mem mkProcessed hf
  have hsorted : mkProcessed f ∈ sorted :=
    (sortFilingsDesc_perm hs).mem_iff.mpr hpf
  obtain ⟨vf, hvm, hve⟩ :=
    validateFilings_mem_forward sorted vfs hv (mkProcessed f) hsorted
  refine ⟨vf, by rw [hfl]; exact hvm, ?_⟩
  have hst : f.submission_type = some vf.submission_type :=
    (validateFiling_fields hve).2
  rw [← hst]
  exact happf

set_option maxRecDepth 8000 in
theorem c6_witness :
    (firstCompany amendedRun).entity_type = "Company".toList ∧
    (firstCompany amendedRun).is_applicant = true ∧
    ∃ vf ∈ (firstCompany amendedRun).filings,
      is_application_type (some vf.submission_type) = true :=
  c6_emission_gate ("t0".toList) [acmeFiling1A, acmeFiling2A] amendedRun
    (by decide) (firstCompany amendedRun) (by decide)

/-- **C7.**  Every emitted Company satisfies
`filing_count = length of its filings list`. -/
theorem c7_filing_count (now : Str) (fs : List RawFiling) (r : StructResult)
    (h : structure_data now fs = .ok r) :
    ∀ c ∈ r.companies, c.filing_count = c.filings.length := by
  intro c hc
  obtain ⟨key, fsc, eo, _, hp⟩ := structure_data_mem h c hc
  obtain ⟨sorted, vfs, hs, hv, _, _, _, _, _, hfc, hfl⟩ :=
    processCluster_emit hp
  rw [hfc, hfl, validateFilings_length sorted vfs hv]

set_option maxRecDepth 8000 in
theorem c7_witness :
    (firstCompany amendedRun).filing_count =
      (firstCompany amendedRun).filings.length :=
  c7_filing_count ("t0".toList) [acmeFiling1A, acmeFiling2A] amendedRun
    (by decide) (firstCompany amendedRun) (by decide)

/-- **C8.**  The filings of every emitted Company are sorted by
`date_received` in descending lexicographic order, and any filing whose
`date_received` is the empty string sits after every filing with a
populated date (everything after an empty-dated filing is empty-dated). -/
theorem c8_filings_sorted (now : Str) (fs : List RawFiling)
    (r : StructResult) (h : structure_data now fs = .ok r) :
    ∀ c ∈ r.companies,
      List.Pairwise (fun a b => b.date_received ≤ a.date_received)
        c.filings ∧
      (∀ a b : Filing, [a, b].Sublist c.filings →
        a.date_received = [] → b.date_received = []) := by
  intro c hc
  obtain ⟨key, fsc, eo, _, hp⟩ := structure_data_mem h c hc
  obtain ⟨sorted, vfs, hs, hv, _, _, _, _, _, _, hfl⟩ :=
    processCluster_emit hp
  have hpw := validateFilings_pairwise hv (sortFilingsDesc_sorted hs)
  rw [hfl]
  refine ⟨hpw, ?_⟩
  intro a b hsub ha
  have h2 := List.Pairwise.sublist hsub hpw
  obtain ⟨hrel, _⟩ := List.pairwise_cons.mp h2
  have hba := hrel b (List.mem_singleton.mpr rfl)
  rw [ha] at hba
  exact strLe_nil_eq hba

/-!
### Idempotence machinery for the normalizer (claim C2)

The normalizer is not idempotent in general (`c2_counterexample`), but it
is idempotent on every input whose normalized form triggers neither the
`d/b/a` truncation nor a bare business-suffix token.  The development below
shows that the normalized output is a list of space-separated, all-word,
all-lowercase tokens, and that each pipeline stage fixes such a string.
-/

theorem charOfNat_toNat (n : Nat) (h : n.isValidChar) :
    (Char.ofNat n).toNat = n := by
  unfold Char.ofNat
  rw [dif_pos h]
  unfold Char.ofNatAux
  simp [Char.toNat, UInt32.toNat, BitVec.toNat_ofNatLt]

theorem pyLower_idem (a : Char) : pyLower (pyLower a) = pyLower a := by
  unfold pyLower Char.toLower
  by_cases h : a.toNat ≥ 65 ∧ a.toNat ≤ 90
  · rw [if_pos h]
    have hv : (Char.ofNat (a.toNat + 32)).toNat = a.toNat + 32 := by
      apply charOfNat_toNat
      left
      omega
    rw [hv, if_neg (by omega)]
  · rw [if_neg h, if_neg h]

theorem word_not_space {c : Char} (h : isWordChar c = true) :
    isSpaceChar c = false := by
  by_contra hx
  rw [Bool.not_eq_false] at hx
  have hx' : c = ' ' ∨ c = '\t' ∨ c = '\n' ∨ c = '\r' ∨ c = '\x0b' ∨
      c = '\x0c' := by
    simpa [isSpaceChar, or_assoc] using hx
  rcases hx' with h1 | h1 | h1 | h1 | h1 | h1 <;> subst h1 <;>
    exact absurd h (by decide)

theorem subScanGo_mem (as : List Alt) :
    ∀ (s : Str) (skip : Nat) (w : Bool) (c : Char),
      c ∈ subScanGo as skip w s → c ∈ s := by
  intro s
  induction s with
  | nil => intro skip w c hc; simp [subScanGo] at hc
  | cons c0 cs ih =>
    intro skip w c hc
    match skip with
    | skip' + 1 =>
      simp only [subScanGo] at hc
      exact List.mem_cons_of_mem _ (ih skip' w c hc)
    | 0 =>
      simp only [subScanGo] at hc
      by_cases hw : w
      · rw [if_pos hw] at hc
        rcases List.mem_cons.mp hc with h0 | h0
        · exact h0 ▸ List.mem_cons_self _ _
        · exact List.mem_cons_of_mem _ (ih 0 (isWordChar c0) c h0)
      · rw [if_neg hw] at hc
        cases ha : altsTry as (c0 :: cs) with
        | some p =>
          rw [ha] at hc
          exact List.mem_cons_of_mem _ (ih (p.1 - 1) p.2 c hc)
        | none =>
          rw [ha] at hc
          rcases List.mem_cons.mp hc with h0 | h0
          · exact h0 ▸ List.mem_cons_self _ _
          · exact List.mem_cons_of_mem _ (ih 0 (isWordChar c0) c h0)

theorem dbaTail_shape {u l : Str} (h : dbaTail u = some l) :
    l = [] ∨ l = ['\n'] := by
  cases u with
  | nil => exact absurd h (by simp [dbaTail])
  | cons c rest =>
    simp only [dbaTail] at h
    by_cases hsp : isSpaceChar c
    · rw [if_pos hsp] at h
      split at h
      · exact Or.inl (Option.some.inj h).symm
      · exact Or.inr (Option.some.inj h).symm
      · exact absurd h (by simp)
    · rw [if_neg hsp] at h
      exact absurd h (by simp)

theorem dbaTryAt_shape {s l : Str} (h : dbaTryAt s = some l) :
    l = [] ∨ l = ['\n'] := by
  unfold dbaTryAt at h
  dsimp only at h
  split at h
  · exact dbaTail_shape h
  · exact absurd h (by simp)

theorem dbaScan_mem : ∀ (s : Str) (c : Char),
    c ∈ dbaScan s → c ∈ s ∨ c = '\n' := by
  intro s
  induction s with
  | nil => intro c hc; simp [dbaScan] at hc
  | cons c0 cs ih =>
    intro c hc
    unfold dbaScan at hc
    cases hm : dbaTryAt (c0 :: cs) with
    | some leftover =>
      rw [hm] at hc
      rcases dbaTryAt_shape hm with h0 | h0 <;> subst h0
      · simp at hc
      · simp at hc; exact Or.inr hc
    | none =>
      rw [hm] at hc
      rcases List.mem_cons.mp hc with h0 | h0
      · exact Or.inl (h0 ▸ List.mem_cons_self _ _)
      · rcases ih c h0 with h1 | h1
        · exact Or.inl (List.mem_cons_of_mem _ h1)
        · exact Or.inr h1

theorem collapseGo_mem : ∀ (x : Str) (b : Bool) (c : Char),
    c ∈ collapseGo b x → (c ∈ x ∧ isSpaceChar c = false) ∨ c = ' ' := by
  intro x
  induction x with
  | nil => intro b c hc; simp [collapseGo] at hc
  | cons c0 cs ih =>
    intro b c hc
    unfold collapseGo at hc
    by_cases hsp : isSpaceChar c0
    · rw [if_pos hsp] at hc
      by_cases hb : b
      · rw [if_pos hb] at hc
        rcases ih true c hc with ⟨h1, h2⟩ | h1
        · exact Or.inl ⟨List.mem_cons_of_mem _ h1, h2⟩
        · exact Or.inr h1
      · rw [if_neg hb] at hc
        rcases List.mem_cons.mp hc with h0 | h0
        · exact Or.inr h0
        · rcases ih true c h0 with ⟨h1, h2⟩ | h1
          · exact Or.inl ⟨List.mem_cons_of_mem _ h1, h2⟩
          · exact Or.inr h1
    · rw [if_neg hsp] at hc
      rcases List.mem_cons.mp hc with h0 | h0
      · subst h0
        exact Or.inl ⟨List.mem_cons_self _ _, by simpa using hsp⟩
      · rcases ih false c h0 with ⟨h1, h2⟩ | h1
        · exact Or.inl ⟨List.mem_cons_of_mem _ h1, h2⟩
        · exact Or.inr h1

theorem collapseGo_true_head : ∀ (x : Str) (c : Char),
    (collapseGo true x).head? = some c → isSpaceChar c = false := by
  intro x
  induction x with
  | nil => intro c hc; simp [collapseGo] at hc
  | cons c0 cs ih =>
    intro c hc
    unfold collapseGo at hc
    by_cases hsp : isSpaceChar c0
    · rw [if_pos hsp, if_pos rfl] at hc
      exact ih c hc
    · rw [if_neg hsp] at hc
      simp only [List.head?_cons, Option.some.injEq] at hc
      subst hc
      simpa using hsp

theorem collapseGo_chain : ∀ (x : Str) (b : Bool),
    List.Chain' (fun a d => ¬(isSpaceChar a = true ∧ isSpaceChar d = true))
      (collapseGo b x) := by
  intro x
  induction x with
  | nil => intro b; simp [collapseGo]
  | cons c0 cs ih =>
    intro b
    unfold collapseGo
    by_cases hsp : isSpaceChar c0
    · rw [if_pos hsp]
      cases b with
      | true => rw [if_pos rfl]; exact ih true
      | false =>
        rw [if_neg (by simp)]
        rw [List.chain'_cons']
        refine ⟨?_, ih true⟩
        intro y hy hpair
        have hns := collapseGo_true_head cs y (Option.mem_def.mp hy)
        rw [hns] at hpair
        exact Bool.false_ne_true hpair.2
    · rw [if_neg hsp]
      rw [List.chain'_cons']
      refine ⟨?_, ih false⟩
      intro y _ hpair
      exact hsp hpair.1

theorem pyStrip_within (z : Str) : pyStrip z <:+: z := by
  have h1 : z.dropWhile isSpaceChar <:+ z := List.dropWhile_suffix _
  have h2 : (z.dropWhile isSpaceChar).reverse.dropWhile isSpaceChar <:+
      (z.dropWhile isSpaceChar).reverse := List.dropWhile_suffix _
  have h4 : ((z.dropWhile isSpaceChar).reverse.dropWhile isSpaceChar).reverse
      <+: z.dropWhile isSpaceChar := by
    rw [← List.reverse_suffix]
    simpa using h2
  exact h4.isInfix.trans h1.isInfix

theorem pyStrip_mem {z : Str} {c : Char} (h : c ∈ pyStrip z) : c ∈ z :=
  (pyStrip_within z).sublist.mem h

theorem dropWhile_head_not {α : Type} (p : α → Bool) :
    ∀ (l : List α) (c : α) (cs : List α),
      l.dropWhile p = c :: cs → p c = false := by
  intro l
  induction l with
  | nil => intro c cs h; simp at h
  | cons c0 l' ih =>
    intro c cs h
    rw [List.dropWhile_cons] at h
    by_cases hp : p c0
    · rw [if_pos hp] at h
      exact ih c cs h
    · rw [if_neg hp] at h
      obtain ⟨h1, _⟩ := List.cons.inj h
      subst h1
      simpa using hp

theorem suffix_getLast? {α : Type} {l₁ l₂ : List α} (h : l₁ <:+ l₂)
    (hne : l₁ ≠ []) : l₁.getLast? = l₂.getLast? := by
  obtain ⟨t, rfl⟩ := h
  rw [List.getLast?_append]
  cases hl : l₁.getLast? with
  | none => exact absurd (List.getLast?_eq_none_iff.mp hl) hne
  | some c => simp

theorem pyStrip_head (z : Str) : ∀ c, (pyStrip z).head? = some c →
    isSpaceChar c = false := by
  intro c hc
  unfold pyStrip at hc
  rw [List.head?_reverse] at hc
  have hAne : (z.dropWhile isSpaceChar).reverse.dropWhile isSpaceChar ≠ [] := by
    intro h0; rw [h0] at hc; simp at hc
  have h2 := suffix_getLast? (List.dropWhile_suffix (l :=
    (z.dropWhile isSpaceChar).reverse) isSpaceChar) hAne
  rw [h2, List.getLast?_reverse] at hc
  cases hd : z.dropWhile isSpaceChar with
  | nil => rw [hd] at hc; simp at hc
  | cons c0 cs =>
    rw [hd] at hc
    simp only [List.head?_cons, Option.some.injEq] at hc
    subst hc
    exact dropWhile_head_not _ z c0 cs hd

theorem pyStrip_revhead (z : Str) : ∀ c,
    (pyStrip z).reverse.head? = some c → isSpaceChar c = false := by
  intro c hc
  unfold pyStrip at hc
  rw [List.reverse_reverse] at hc
  cases hd : (z.dropWhile isSpaceChar).reverse.dropWhile isSpaceChar with
  | nil => rw [hd] at hc; simp at hc
  | cons c0 cs =>
    rw [hd] at hc
    simp only [List.head?_cons, Option.some.injEq] at hc
    subst hc
    exact dropWhile_head_not _ _ c0 cs hd

theorem dropWhile_eq_self_of_head {α : Type} (p : α → Bool) (l : List α)
    (h : ∀ c, l.head? = some c → p c = false) : l.dropWhile p = l := by
  cases l with
  | nil => rfl
  | cons c cs =>
    rw [List.dropWhile_cons]
    simp [h c rfl]

theorem pyStrip_id (t : Str)
    (h1 : ∀ c, t.head? = some c → isSpaceChar c = false)
    (h2 : ∀ c, t.reverse.head? = some c → isSpaceChar c = false) :
    pyStrip t = t := by
  unfold pyStrip
  rw [dropWhile_eq_self_of_head _ _ h1, dropWhile_eq_self_of_head _ _ h2,
    List.reverse_reverse]

theorem collapseGo_id : ∀ (t : Str) (b : Bool),
    (∀ c ∈ t, isSpaceChar c = true → c = ' ') →
    List.Chain' (fun a d => ¬(isSpaceChar a = true ∧ isSpaceChar d = true))
      t →
    (b = true → ∀ c, t.head? = some c → isSpaceChar c = false) →
    collapseGo b t = t := by
  intro t
  induction t with
  | nil => intro b _ _ _; rfl
  | cons c0 cs ih =>
    intro b hs hch hb
    unfold collapseGo
    by_cases hsp : isSpaceChar c0
    · have hc0 : c0 = ' ' := hs c0 (List.mem_cons_self _ _) hsp
      cases b with
      | true => exact absurd hsp (by simp [hb rfl c0 rfl])
      | false =>
        rw [if_pos hsp, if_neg (by simp)]
        have htail : collapseGo true cs = cs := by
          apply ih true
          · exact fun c hc hsc => hs c (List.mem_cons_of_mem _ hc) hsc
          · exact (List.chain'_cons'.mp hch).2
          · intro _ c hc
            have hrel := (List.chain'_cons'.mp hch).1
            by_contra hx
            rw [Bool.not_eq_false] at hx
            exact hrel c (by simpa [Option.mem_def] using hc) ⟨hsp, hx⟩
        rw [htail, hc0]
    · rw [if_neg hsp]
      have htail : collapseGo false cs = cs := by
        apply ih false
        · exact fun c hc hsc => hs c (List.mem_cons_of_mem _ hc) hsc
        · exact (List.chain'_cons'.mp hch).2
        · intro hfalse; exact absurd hfalse (by simp)
      rw [htail]

theorem puncMap_id (t : Str)
    (h : ∀ c ∈ t, isWordChar c = true ∨ c = ' ') : t.map puncMap = t := by
  induction t with
  | nil => rfl
  | cons c0 cs ih =>
    rw [List.map_cons]
    have hc0 : puncMap c0 = c0 := by
      rcases h c0 (List.mem_cons_self _ _) with hw | hsp
      · simp [puncMap, hw]
      · subst hsp; rfl
    rw [hc0, ih (fun c hc => h c (List.mem_cons_of_mem _ hc))]

theorem mapLower_id (t : Str)
    (h : ∀ c ∈ t, pyLower c = c) : t.map pyLower = t := by
  induction t with
  | nil => rfl
  | cons c0 cs ih =>
    rw [List.map_cons, h c0 (List.mem_cons_self _ _),
      ih (fun c hc => h c (List.mem_cons_of_mem _ hc))]

/-- Every string made of word characters and single interior spaces splits
into nonempty all-word tokens joined by single spaces. -/
theorem tokens_decomp : ∀ (n : Nat) (t : Str), t.length ≤ n →
    (∀ c ∈ t, isWordChar c = true ∨ c = ' ') →
    List.Chain' (fun a d => ¬(isSpaceChar a = true ∧ isSpaceChar d = true))
      t →
    (∀ c, t.head? = some c → isSpaceChar c = false) →
    (∀ c, t.getLast? = some c → isSpaceChar c = false) →
    ∃ runs, t = joinT runs ∧
      ∀ R ∈ runs, R ≠ [] ∧ ∀ c ∈ R, isWordChar c = true := by
  intro n
  induction n with
  | zero =>
    intro t hlen _ _ _ _
    have ht : t = [] := List.length_eq_zero.mp (Nat.le_zero.mp hlen)
    subst ht
    exact ⟨[], rfl, by simp⟩
  | succ n ih =>
    intro t hlen hA hch hhd hlast
    cases t with
    | nil => exact ⟨[], rfl, by simp⟩
    | cons c rest =>
      have hcw : isWordChar c = true := by
        rcases hA c (List.mem_cons_self _ _) with hw | hsp
        · exact hw
        · subst hsp; exact absurd (hhd ' ' rfl) (by decide)
      have htu : (c :: rest).takeWhile isWordChar ++
          (c :: rest).dropWhile isWordChar = c :: rest :=
        List.takeWhile_append_dropWhile _ _
      have hRne : (c :: rest).takeWhile isWordChar ≠ [] := by
        rw [List.takeWhile_cons, if_pos hcw]
        simp
      have hRw : ∀ x ∈ (c :: rest).takeWhile isWordChar,
          isWordChar x = true := fun x hx => List.mem_takeWhile_imp hx
      cases hu0 : (c :: rest).dropWhile isWordChar with
      | nil =>
        refine ⟨[(c :: rest).takeWhile isWordChar], ?_, ?_⟩
        · have : (c :: rest).takeWhile isWordChar ++ [] = c :: rest := by
            rw [← hu0]; exact htu
          simpa [joinT] using this.symm
        · intro R hR
          rw [List.mem_singleton] at hR
          subst hR
          exact ⟨hRne, hRw⟩
      | cons d u' =>
        have hd_nw : isWordChar d = false :=
          dropWhile_head_not _ (c :: rest) d u' hu0
        have husuf : d :: u' <:+ c :: rest := by
          rw [← hu0]; exact List.dropWhile_suffix _
        have hdmem : d ∈ c :: rest :=
          husuf.sublist.mem (List.mem_cons_self _ _)
        have hdsp : d = ' ' := by
          rcases hA d hdmem with hw | hsp
          · exact absurd hw (by simp [hd_nw])
          · exact hsp
        have hu'ne : u' ≠ [] := by
          intro h0
          subst h0
          have hlst : (c :: rest).getLast? = some d := by
            have := htu
            rw [hu0] at this
            rw [← this]
            exact List.getLast?_concat _
          subst hdsp
          exact absurd (hlast ' ' hlst) (by decide)
        have hchu : List.Chain'
            (fun a d => ¬(isSpaceChar a = true ∧ isSpaceChar d = true))
            (d :: u') := hch.infix husuf.isInfix
        have hu'hd : ∀ e, u'.head? = some e → isSpaceChar e = false := by
          intro e he
          have hrel := (List.chain'_cons'.mp hchu).1 e
            (by simpa [Option.mem_def] using he)
          by_contra hx
          rw [Bool.not_eq_false] at hx
          exact hrel ⟨by subst hdsp; decide, hx⟩
        have hlen' : u'.length ≤ n := by
          have hl : (c :: rest).length =
              ((c :: rest).takeWhile isWordChar).length + (u'.length + 1) := by
            conv_lhs => rw [← htu]
            rw [hu0]
            simp [List.length_append]
          have hR1 : 1 ≤ ((c :: rest).takeWhile isWordChar).length :=
            List.length_pos.mpr hRne
          simp only [List.length_cons] at hlen hl
          omega
        have hA' : ∀ x ∈ u', isWordChar x = true ∨ x = ' ' :=
          fun x hx => hA x (husuf.sublist.mem (List.mem_cons_of_mem _ hx))
        have hch' := (List.chain'_cons'.mp hchu).2
        have hlast' : ∀ e, u'.getLast? = some e → isSpaceChar e = false := by
          intro e he
          apply hlast
          have hsfx : u' <:+ c :: rest :=
            (List.suffix_cons d u').trans husuf
          rw [← suffix_getLast? hsfx hu'ne]
          exact he
        obtain ⟨runs', hjoin', hgood'⟩ := ih u' hlen' hA' hch' hu'hd hlast'
        have hrne : runs' ≠ [] := by
          intro h0
          subst h0
          exact hu'ne hjoin'
        refine ⟨(c :: rest).takeWhile isWordChar :: runs', ?_, ?_⟩
        · cases runs' with
          | nil => exact absurd rfl hrne
          | cons S rest' =>
            show c :: rest =
              (c :: rest).takeWhile isWordChar ++ ' ' :: joinT (S :: rest')
            rw [← hjoin', ← hdsp, ← hu0]
            exact htu.symm
        · intro R hR
          rcases List.mem_cons.mp hR with h0 | h0
          · subst h0; exact ⟨hRne, hRw⟩
          · exact hgood' R h0

theorem splitWsGo_token : ∀ (R : Str), (∀ c ∈ R, isSpaceChar c = false) →
    ∀ (cur u : Str), splitWsGo cur (R ++ u) = splitWsGo (R.reverse ++ cur) u := by
  intro R
  induction R with
  | nil => intro _ cur u; simp
  | cons c R' ih =>
    intro h cur u
    have hc : isSpaceChar c = false := h c (List.mem_cons_self _ _)
    have hstep : splitWsGo cur (c :: (R' ++ u)) =
        splitWsGo (c :: cur) (R' ++ u) := by
      conv_lhs => unfold splitWsGo
      rw [if_neg (by simp [hc])]
    rw [List.cons_append, hstep,
      ih (fun x hx => h x (List.mem_cons_of_mem _ hx)) (c :: cur) u]
    congr 1
    simp

theorem pySplitWs_joinT : ∀ (runs : List Str),
    (∀ R ∈ runs, R ≠ [] ∧ ∀ c ∈ R, isWordChar c = true) →
    pySplitWs (joinT runs) = runs
  | [], _ => rfl
  | [R], h => by
    obtain ⟨hne, hw⟩ := h R (List.mem_singleton.mpr rfl)
    have hns : ∀ c ∈ R, isSpaceChar c = false :=
      fun c hc => word_not_space (hw c hc)
    show splitWsGo [] (joinT [R]) = [R]
    have hj : joinT [R] = R ++ [] := by simp [joinT]
    rw [hj, splitWsGo_token R hns [] []]
    unfold splitWsGo
    rw [if_neg (by simp [hne])]
    simp
  | R :: S :: rest, h => by
    obtain ⟨hne, hw⟩ := h R (List.mem_cons_self _ _)
    have hns : ∀ c ∈ R, isSpaceChar c = false :=
      fun c hc => word_not_space (hw c hc)
    have ih := pySplitWs_joinT (S :: rest)
      (fun X hX => h X (List.mem_cons_of_mem _ hX))
    show splitWsGo [] (joinT (R :: S :: rest)) = R :: S :: rest
    have hj : joinT (R :: S :: rest) = R ++ (' ' :: joinT (S :: rest)) := rfl
    rw [hj, splitWsGo_token R hns [] (' ' :: joinT (S :: rest))]
    unfold splitWsGo
    rw [if_pos (by decide)]
    rw [if_neg (by simp [hne])]
    rw [List.append_nil, List.reverse_reverse]
    exact congrArg (R :: ·) ih

theorem dropPre_eq_some : ∀ (p s r : Str), dropPre p s = some r →
    s = p ++ r := by
  intro p
  induction p with
  | nil =>
    intro s r h
    simp only [dropPre, Option.some.injEq] at h
    rw [h]; rfl
  | cons a p' ih =>
    intro s r h
    cases s with
    | nil => simp [dropPre] at h
    | cons b s' =>
      unfold dropPre at h
      by_cases hab : a = b
      · rw [if_pos hab] at h
        rw [← hab]
        simp [ih s' r h]
      · rw [if_neg hab] at h; exact absurd h (by simp)

theorem altTry_none (a : Alt) (R tail : Str)
    (hlitne : a.lit ≠ []) (hlitsp : ' ' ∉ a.lit) (hlitR : a.lit ≠ R)
    (hRne : R ≠ []) (hRw : ∀ c ∈ R, isWordChar c = true)
    (htail : tail = [] ∨ ∃ u, tail = ' ' :: u) :
    altTry a (R ++ tail) = none := by
  unfold altTry
  cases hd : dropPre a.lit (R ++ tail) with
  | none => rfl
  | some rest =>
    have heq : R ++ tail = a.lit ++ rest := dropPre_eq_some _ _ _ hd
    rcases Nat.lt_trichotomy a.lit.length R.length with hlt | heqlen | hgt
    · have hrest : rest = R.drop a.lit.length ++ tail := by
        have hdrop := congrArg (List.drop a.lit.length) heq
        rw [List.drop_append_of_le_length (le_of_lt hlt),
          List.drop_append_of_le_length (le_refl _),
          List.drop_length] at hdrop
        simpa using hdrop.symm
      obtain ⟨e, rest', hre⟩ : ∃ e rest',
          R.drop a.lit.length = e :: rest' := by
        cases hD : R.drop a.lit.length with
        | nil =>
          have := congrArg List.length hD
          rw [List.length_drop] at this
          simp at this
          omega
        | cons e rest' => exact ⟨e, rest', rfl⟩
      have hew : isWordChar e = true := hRw e (List.mem_of_mem_drop
        (by rw [hre]; exact List.mem_cons_self _ _))
      have hrest2 : rest = e :: (rest' ++ tail) := by
        rw [hrest, hre]; rfl
      rw [hrest2]
      dsimp only
      by_cases hdot : a.optDot
      · rw [if_pos hdot]
        split
        · rename_i heqpat
          obtain ⟨hedot, _⟩ := List.cons.inj heqpat
          rw [hedot] at hew
          exact absurd hew (by decide)
        · rw [if_neg (by simp [wordBoundaryAfter, hew])]
      · rw [if_neg hdot]
        rw [if_neg (by simp [wordBoundaryAfter, hew])]
    · obtain ⟨h1, _⟩ := List.append_inj heq heqlen.symm
      exact absurd h1.symm hlitR
    · rcases htail with h0 | ⟨u, h0⟩
      · subst h0
        have hlen := congrArg List.length heq
        simp [List.length_append] at hlen
        omega
      · subst h0
        have hlit : a.lit = R ++ (' ' :: u).take (a.lit.length - R.length) := by
          have htake := congrArg (List.take a.lit.length) heq
          rw [List.take_append_eq_append_take,
            List.take_of_length_le (le_of_lt hgt), List.take_left] at htake
          exact htake.symm
        have hsp : ' ' ∈ a.lit := by
          rw [hlit]
          apply List.mem_append_right
          cases hk : a.lit.length - R.length with
          | zero => omega
          | succ k => simp [List.take_succ_cons]
        exact absurd hsp hlitsp

theorem altsTry_none (as : List Alt) (R tail : Str)
    (has : ∀ a ∈ as, a.lit ≠ [] ∧ ' ' ∉ a.lit ∧ a.lit ≠ R)
    (hRne : R ≠ []) (hRw : ∀ c ∈ R, isWordChar c = true)
    (htail : tail = [] ∨ ∃ u, tail = ' ' :: u) :
    altsTry as (R ++ tail) = none := by
  induction as with
  | nil => rfl
  | cons a as' ih =>
    unfold altsTry
    obtain ⟨h1, h2, h3⟩ := has a (List.mem_cons_self _ _)
    rw [altTry_none a R tail h1 h2 h3 hRne hRw htail]
    exact ih (fun x hx => has x (List.mem_cons_of_mem _ hx))

theorem subScanGo_word_run (as : List Alt) :
    ∀ (R tail : Str), (∀ c ∈ R, isWordChar c = true) →
      subScanGo as 0 true (R ++ tail) = R ++ subScanGo as 0 true tail := by
  intro R
  induction R with
  | nil => intro tail _; rfl
  | cons c R' ih =>
    intro tail h
    have hc := h c (List.mem_cons_self _ _)
    show subScanGo as 0 true (c :: (R' ++ tail)) = _
    simp only [subScanGo, if_pos rfl, hc]
    rw [ih tail (fun x hx => h x (List.mem_cons_of_mem _ hx))]
    simp

theorem subScan_run (as : List Alt) (R tail : Str) (hRne : R ≠ [])
    (hRw : ∀ c ∈ R, isWordChar c = true)
    (hfail : altsTry as (R ++ tail) = none) :
    subScanGo as 0 false (R ++ tail) = R ++ subScanGo as 0 true tail := by
  cases R with
  | nil => exact absurd rfl hRne
  | cons c R' =>
    have hc := hRw c (List.mem_cons_self _ _)
    rw [List.cons_append] at hfail ⊢
    simp only [subScanGo, if_neg (by simp : ¬(false = true)), hfail, hc]
    rw [subScanGo_word_run as R' tail
      (fun x hx => hRw x (List.mem_cons_of_mem _ hx))]
    rfl

theorem subScan_sep (as : List Alt) (rest : Str) :
    subScanGo as 0 true (' ' :: rest) = ' ' :: subScanGo as 0 false rest :=
  rfl

theorem subScan_joinT_fix (as : List Alt) :
    ∀ (runs : List Str),
      (∀ R ∈ runs, R ≠ [] ∧ (∀ c ∈ R, isWordChar c = true) ∧
        (∀ a ∈ as, a.lit ≠ [] ∧ ' ' ∉ a.lit ∧ a.lit ≠ R)) →
      subScan as false (joinT runs) = joinT runs
  | [], _ => rfl
  | [R], h => by
    obtain ⟨hne, hw, hlits⟩ := h R (List.mem_singleton.mpr rfl)
    show subScanGo as 0 false (joinT [R]) = joinT [R]
    have hj : joinT [R] = R ++ [] := by simp [joinT]
    rw [hj, subScan_run as R [] hne hw
      (altsTry_none as R [] hlits hne hw (Or.inl rfl))]
    rfl
  | R :: S :: rest, h => by
    obtain ⟨hne, hw, hlits⟩ := h R (List.mem_cons_self _ _)
    have ih := subScan_joinT_fix as (S :: rest)
      (fun X hX => h X (List.mem_cons_of_mem _ hX))
    show subScanGo as 0 false (joinT (R :: S :: rest)) = joinT (R :: S :: rest)
    have hj : joinT (R :: S :: rest) = R ++ (' ' :: joinT (S :: rest)) := rfl
    rw [hj, subScan_run as R (' ' :: joinT (S :: rest)) hne hw
      (altsTry_none as R _ hlits hne hw (Or.inr ⟨_, rfl⟩)), subScan_sep]
    show R ++ ' ' :: subScanGo as 0 false (joinT (S :: rest)) = _
    rw [show subScanGo as 0 false (joinT (S :: rest)) = joinT (S :: rest)
      from ih]

theorem subScan_mem (as : List Alt) (s : Str) {c : Char}
    (h : c ∈ subScan as false s) : c ∈ s :=
  subScanGo_mem as s 0 false c h

theorem puncMap_nonspace {d c : Char} (hd : puncMap d = c)
    (hns : isSpaceChar c = false) : c = d ∧ isWordChar c = true := by
  unfold puncMap at hd
  by_cases h : (isWordChar d || isSpaceChar d) = true
  · rw [if_pos h] at hd
    refine ⟨hd.symm, ?_⟩
    rw [← hd]
    have hor : isWordChar d = true ∨ isSpaceChar d = true := by
      simpa using h
    rcases hor with hw | hs
    · exact hw
    · rw [← hd] at hns
      exact absurd hs (by simp [hns])
  · rw [if_neg h] at hd
    exact absurd hns (by rw [← hd]; decide)

theorem normalize_eq (s : Str) (h : s ≠ []) :
    normalize_company_name s = pyStrip (collapseGo false
      ((dbaScan (subScan alts3 false (subScan alts2 false
        (subScan alts1 false (pyStrip (s.map pyLower)))))).map puncMap)) := by
  unfold normalize_company_name
  rw [if_neg h]

/-- C2 (amended): the name normalizer is idempotent on every input string
whose normalized form contains no doing-business-as marker the scanner acts
on and no whitespace-delimited token equal to a bare business-suffix
literal: for such inputs the second normalization returns its input. -/
theorem c2_amended (s : Str)
    (h1 : dbaScan (normalize_company_name s) = normalize_company_name s)
    (h2 : ∀ R ∈ pySplitWs (normalize_company_name s), R ∉ suffixLits) :
    normalize_company_name (normalize_company_name s) =
      normalize_company_name s := by
  by_cases htne : normalize_company_name s = []
  · rw [htne]
    rfl
  · set t := normalize_company_name s with ht
    have hsne : s ≠ [] := by
      intro h0
      apply htne
      rw [ht, h0]
      rfl
    have hteq : t = pyStrip (collapseGo false
        ((dbaScan (subScan alts3 false (subScan alts2 false
          (subScan alts1 false (pyStrip (s.map pyLower)))))).map puncMap)) :=
      ht.trans (normalize_eq s hsne)
    have hhd : ∀ c, t.head? = some c → isSpaceChar c = false := by
      rw [hteq]
      exact pyStrip_head _
    have hlast : ∀ c, t.getLast? = some c → isSpaceChar c = false := by
      intro c hc
      rw [hteq] at hc
      apply pyStrip_revhead _ c
      rw [List.head?_reverse]
      exact hc
    have hrev : ∀ c, t.reverse.head? = some c → isSpaceChar c = false := by
      intro c hc
      rw [List.head?_reverse] at hc
      exact hlast c hc
    have hch : List.Chain'
        (fun a d => ¬(isSpaceChar a = true ∧ isSpaceChar d = true)) t := by
      rw [hteq]
      exact List.Chain'.infix (collapseGo_chain _ false) (pyStrip_within _)
    have hA : ∀ c ∈ t, isWordChar c = true ∨ c = ' ' := by
      intro c hc
      rw [hteq] at hc
      rcases collapseGo_mem _ false c (pyStrip_mem hc) with ⟨hmem, hns⟩ | hsp
      · obtain ⟨d, _, hd⟩ := List.mem_map.mp hmem
        exact Or.inl (puncMap_nonspace hd hns).2
      · exact Or.inr hsp
    have hlower : ∀ c ∈ t, pyLower c = c := by
      intro c hc
      rw [hteq] at hc
      rcases collapseGo_mem _ false c (pyStrip_mem hc) with ⟨hmem, hns⟩ | hsp
      · obtain ⟨d, hdmem, hd⟩ := List.mem_map.mp hmem
        obtain ⟨hcd, _⟩ := puncMap_nonspace hd hns
        subst hcd
        rcases dbaScan_mem _ c hdmem with hd4 | hnl
        · have h3 := subScan_mem alts3 _ hd4
          have h2m := subScan_mem alts2 _ h3
          have h1m := subScan_mem alts1 _ h2m
          obtain ⟨e, _, he⟩ := List.mem_map.mp (pyStrip_mem h1m)
          rw [← he]
          exact pyLower_idem e
        · rw [hnl] at hns
          exact absurd hns (by decide)
      · subst hsp
        decide
    obtain ⟨runs, hjoin, hgood⟩ :=
      tokens_decomp t.length t (le_refl _) hA hch hhd hlast
    have hsplit : pySplitWs t = runs := by
      rw [hjoin]
      exact pySplitWs_joinT runs hgood
    rw [hsplit] at h2
    have hall : ∀ a ∈ alts1 ++ alts2 ++ alts3,
        a.lit ≠ [] ∧ ' ' ∉ a.lit := by decide
    have hcond : ∀ (as : List Alt),
        (∀ a ∈ as, a ∈ alts1 ++ alts2 ++ alts3) →
        ∀ R ∈ runs, R ≠ [] ∧ (∀ c ∈ R, isWordChar c = true) ∧
          (∀ a ∈ as, a.lit ≠ [] ∧ ' ' ∉ a.lit ∧ a.lit ≠ R) := by
      intro as hsub R hR
      obtain ⟨hRne, hRw⟩ := hgood R hR
      refine ⟨hRne, hRw, ?_⟩
      intro a ha
      obtain ⟨hane, hasp⟩ := hall a (hsub a ha)
      refine ⟨hane, hasp, ?_⟩
      intro heq
      apply h2 R hR
      rw [← heq]
      exact List.mem_map_of_mem Alt.lit (hsub a ha)
    have hs1 : subScan alts1 false t = t := by
      rw [hjoin]
      exact subScan_joinT_fix alts1 runs (hcond alts1
        (fun a ha => List.mem_append_left _ (List.mem_append_left _ ha)))
    have hs2 : subScan alts2 false t = t := by
      rw [hjoin]
      exact subScan_joinT_fix alts2 runs (hcond alts2
        (fun a ha => List.mem_append_left _ (List.mem_append_right _ ha)))
    have hs3 : subScan alts3 false t = t := by
      rw [hjoin]
      exact subScan_joinT_fix alts3 runs (hcond alts3
        (fun a ha => List.mem_append_right _ ha))
    have hscol : collapseGo false t = t := by
      apply collapseGo_id t false
      · intro c hc hsc
        rcases hA c hc with hw | hsp
        · exact absurd hsc (by simp [word_not_space hw])
        · exact hsp
      · exact hch
      · intro hf
        exact absurd hf (by simp)
    have hstrip : pyStrip t = t := pyStrip_id t hhd hrev
    rw [normalize_eq t htne, mapLower_id t hlower, hstrip, hs1, hs2, hs3, h1,
      puncMap_id t hA, hscol]
    exact hstrip

set_option maxRecDepth 8000 in
/-- Witness for the amended C2: the name "Stratus Networks, Inc." satisfies
both side conditions and normalizing twice equals normalizing once. -/
theorem c2_amended_witness :
    dbaScan (normalize_company_name ("Stratus Networks, Inc.".toList)) =
      normalize_company_name ("Stratus Networks, Inc.".toList) ∧
    (∀ R ∈ pySplitWs
        (normalize_company_name ("Stratus Networks, Inc.".toList)),
      R ∉ suffixLits) ∧
    normalize_company_name (normalize_company_name
        ("Stratus Networks, Inc.".toList)) =
      normalize_company_name ("Stratus Networks, Inc.".toList) :=
  ⟨by decide, by decide, c2_amended _ (by decide) (by decide)⟩

set_option maxRecDepth 8000 in
theorem c8_witness :
    List.Pairwise (fun a b => b.date_received ≤ a.date_received)
      (firstCompany amendedRun).filings ∧
    (∀ a b : Filing, [a, b].Sublist (firstCompany amendedRun).filings →
      a.date_received = [] → b.date_received = []) :=
  c8_filings_sorted ("t0".toList) [acmeFiling1A, acmeFiling2A] amendedRun
    (by decide) (firstCompany amendedRun) (by decide)

end IPES
